import Mathlib

/-!
# AgaLang for VS Code: type algebra, token index, resolver, simplifier, printer

A shallow embedding of `src/extension.js` (class `AgaTokenizer`, functions
`resolveDataType`, `typeToString`, `simplifyType`, `removeDuplicates`).

Modelling conventions
* A JavaScript object of the `DataType` typedef is a value of the inductive
  type `DataType`; each constructor is one member of the typedef union, and
  the string tags `class` / `type` are the small enumerations below.
  `null` / `undefined` is `none`.
* A `Record<string, T>` is an association list in key order.
* A JavaScript string is a sequence of UTF-16 code units; it is modelled by
  `String`, one `Char` standing for one code unit, so `length`, `substring`
  and the replacements count `Char`s.
* Numbers that are budgets are integers or `Infinity` (`Budget`); lines,
  columns, indices and versions are natural numbers.
* The backend process is outside the program: `Host.execSync` gives the
  outcome of each launch, and the tokenizer state counts the launches.
* The type trees are values: a function that writes into its argument and
  returns it is modelled by the returned tree.
-/

namespace AgaLang

/-! ## Data model -/

/-- Typedef `Position`. -/
structure Position where
  line : Nat
  column : Nat
deriving DecidableEq, Repr

/-- Typedef `Location`. -/
structure Location where
  start : Position
  «end» : Position
deriving DecidableEq, Repr

/-- Values of `type` for `class: 'agal'` objects without a `val` field. -/
inductive AgalType where
  | numero | byte | nada | buleano | caracter
deriving DecidableEq, Repr

/-- Values of `type` for `class: 'agal'` objects wrapping a `val`. -/
inductive AgalValType where
  | referencia | lista | iterable
deriving DecidableEq, Repr

/-- Values of `class` for the objects of shape `{class, val}`. -/
inductive ValClass where
  | ret | «constructor» | item | promesa
deriving DecidableEq, Repr

/-- Values of `class` for `FnDataType`. -/
inductive FnClass where
  | fn | constructor_fn
deriving DecidableEq, Repr

/-- Typedef `DataType`: one constructor per member of the union. -/
inductive DataType where
  | agal (type : AgalType)
  | agalVal (type : AgalValType) (val : Option DataType)
  | cadena (val : Option String)
  | id (location : Location)
  | params (location : Location)
  | param (location : Location) (index : Nat)
  | instancia (props : List (String × Option DataType)) (name : String)
  | val (cls : ValClass) (val : Option DataType)
  | member (object : DataType) (member : DataType) (is_instance : Bool)
  | multiple (val : List (Option DataType))
  | llamada (callee : DataType) (args : List (Option DataType))
  | fn (cls : FnClass) (params : List (Option DataType)) (ret : Option DataType)
  | mod (path : String)
  | clase (static_props : List (String × Option DataType))
      (instance_props : List (String × Option DataType)) (name : String)

/-! ### Structural equality of type trees

`removeDuplicates` compares `JSON.stringify` images; the serialisation of a
tree determines the tree, so the comparison is structural equality. -/

mutual
/-- Structural equality test on type trees. -/
def DataType.eqb : DataType → DataType → Bool
  | .agal a, b => match b with | .agal b => decide (a = b) | _ => false
  | .agalVal a v, b => match b with | .agalVal b w => decide (a = b) && eqbOpt v w | _ => false
  | .cadena a, b => match b with | .cadena b => decide (a = b) | _ => false
  | .id a, b => match b with | .id b => decide (a = b) | _ => false
  | .params a, b => match b with | .params b => decide (a = b) | _ => false
  | .param a i, b => match b with | .param b j => decide (a = b) && decide (i = j) | _ => false
  | .instancia p n, b => match b with | .instancia q m => eqbProps p q && decide (n = m) | _ => false
  | .val a v, b => match b with | .val b w => decide (a = b) && eqbOpt v w | _ => false
  | .member o m i, b => match b with
      | .member o2 m2 i2 => DataType.eqb o o2 && DataType.eqb m m2 && decide (i = i2) | _ => false
  | .multiple v, b => match b with | .multiple w => eqbList v w | _ => false
  | .llamada c a, b => match b with | .llamada c2 a2 => DataType.eqb c c2 && eqbList a a2 | _ => false
  | .fn k p r, b => match b with
      | .fn k2 p2 r2 => decide (k = k2) && eqbList p p2 && eqbOpt r r2 | _ => false
  | .mod a, b => match b with | .mod b => decide (a = b) | _ => false
  | .clase s i n, b => match b with
      | .clase s2 i2 n2 => eqbProps s s2 && eqbProps i i2 && decide (n = n2) | _ => false
termination_by structural a => a
/-- Structural equality test on nullable type trees. -/
def eqbOpt : Option DataType → Option DataType → Bool
  | none, b => match b with | none => true | _ => false
  | some a, b => match b with | some b => DataType.eqb a b | _ => false
termination_by structural a => a
/-- Structural equality test on arrays of nullable type trees. -/
def eqbList : List (Option DataType) → List (Option DataType) → Bool
  | [], b => match b with | [] => true | _ => false
  | a :: l, b => match b with | b :: m => eqbOpt a b && eqbList l m | _ => false
termination_by structural a => a
/-- Structural equality test on records of nullable type trees. -/
def eqbProps : List (String × Option DataType) → List (String × Option DataType) → Bool
  | [], b => match b with | [] => true | _ => false
  | (k, a) :: l, b => match b with | (k2, b) :: m => decide (k = k2) && eqbOpt a b && eqbProps l m | _ => false
termination_by structural a => a
end

mutual
theorem DataType.eqb_sound : ∀ (a b : DataType), DataType.eqb a b = true → a = b
  | .agal a, b => by cases b <;> simp [DataType.eqb]
  | .agalVal a v, b => by
      cases b <;> simp [DataType.eqb]
      intro h1 h2; exact ⟨h1, eqbOpt_sound _ _ h2⟩
  | .cadena a, b => by cases b <;> simp [DataType.eqb]
  | .id a, b => by cases b <;> simp [DataType.eqb]
  | .params a, b => by cases b <;> simp [DataType.eqb]
  | .param a i, b => by cases b <;> simp [DataType.eqb]
  | .instancia p n, b => by
      cases b <;> simp [DataType.eqb]
      intro h1 h2; exact ⟨eqbProps_sound _ _ h1, h2⟩
  | .val a v, b => by
      cases b <;> simp [DataType.eqb]
      intro h1 h2; exact ⟨h1, eqbOpt_sound _ _ h2⟩
  | .member o m i, b => by
      cases b <;> simp [DataType.eqb]
      intro h1 h2 h3; exact ⟨DataType.eqb_sound _ _ h1, DataType.eqb_sound _ _ h2, h3⟩
  | .multiple v, b => by
      cases b <;> simp [DataType.eqb]
      intro h1; exact eqbList_sound _ _ h1
  | .llamada c a, b => by
      cases b <;> simp [DataType.eqb]
      intro h1 h2; exact ⟨DataType.eqb_sound _ _ h1, eqbList_sound _ _ h2⟩
  | .fn k p r, b => by
      cases b <;> simp [DataType.eqb]
      intro h1 h2 h3; exact ⟨h1, eqbList_sound _ _ h2, eqbOpt_sound _ _ h3⟩
  | .mod a, b => by cases b <;> simp [DataType.eqb]
  | .clase s i n, b => by
      cases b <;> simp [DataType.eqb]
      intro h1 h2 h3; exact ⟨eqbProps_sound _ _ h1, eqbProps_sound _ _ h2, h3⟩
theorem eqbOpt_sound : ∀ (a b : Option DataType), eqbOpt a b = true → a = b
  | none, b => by cases b <;> simp [eqbOpt]
  | some a, b => by
      cases b <;> simp [eqbOpt]
      intro h; exact DataType.eqb_sound _ _ h
theorem eqbList_sound : ∀ (a b : List (Option DataType)), eqbList a b = true → a = b
  | [], b => by cases b <;> simp [eqbList]
  | a :: l, b => by
      cases b <;> simp [eqbList]
      intro h1 h2; exact ⟨eqbOpt_sound _ _ h1, eqbList_sound _ _ h2⟩
theorem eqbProps_sound :
    ∀ (a b : List (String × Option DataType)), eqbProps a b = true → a = b
  | [], b => by cases b <;> simp [eqbProps]
  | (k, a) :: l, b => by
      cases b with
      | nil => simp [eqbProps]
      | cons x m =>
        obtain ⟨k2, b⟩ := x
        simp [eqbProps]
        intro h1 h2 h3; exact ⟨⟨h1, eqbOpt_sound _ _ h2⟩, eqbProps_sound _ _ h3⟩
end

mutual
theorem DataType.eqb_refl : ∀ (a : DataType), DataType.eqb a a = true
  | .agal a => by simp [DataType.eqb]
  | .agalVal a v => by simp [DataType.eqb, eqbOpt_refl v]
  | .cadena a => by simp [DataType.eqb]
  | .id a => by simp [DataType.eqb]
  | .params a => by simp [DataType.eqb]
  | .param a i => by simp [DataType.eqb]
  | .instancia p n => by simp [DataType.eqb, eqbProps_refl p]
  | .val a v => by simp [DataType.eqb, eqbOpt_refl v]
  | .member o m i => by simp [DataType.eqb, DataType.eqb_refl o, DataType.eqb_refl m]
  | .multiple v => by simp [DataType.eqb, eqbList_refl v]
  | .llamada c a => by simp [DataType.eqb, DataType.eqb_refl c, eqbList_refl a]
  | .fn k p r => by simp [DataType.eqb, eqbList_refl p, eqbOpt_refl r]
  | .mod a => by simp [DataType.eqb]
  | .clase s i n => by simp [DataType.eqb, eqbProps_refl s, eqbProps_refl i]
theorem eqbOpt_refl : ∀ (a : Option DataType), eqbOpt a a = true
  | none => by simp [eqbOpt]
  | some a => by simp [eqbOpt, DataType.eqb_refl a]
theorem eqbList_refl : ∀ (a : List (Option DataType)), eqbList a a = true
  | [] => by simp [eqbList]
  | a :: l => by simp [eqbList, eqbOpt_refl a, eqbList_refl l]
theorem eqbProps_refl : ∀ (a : List (String × Option DataType)), eqbProps a a = true
  | [] => by simp [eqbProps]
  | (k, a) :: l => by simp [eqbProps, eqbOpt_refl a, eqbProps_refl l]
end

instance : DecidableEq DataType := fun a b =>
  if h : DataType.eqb a b = true then isTrue (DataType.eqb_sound a b h)
  else isFalse (fun e => h (e ▸ DataType.eqb_refl a))

/-! ## Type simplifier -/

/-- Loop of `removeDuplicates`: `seen` is the set of serialisations met so far,
`result` the array being built. -/
def removeDuplicates.loop : List DataType → List DataType → List DataType → List DataType
  | [], _, result => result
  | item :: arr, seen, result =>
      if item ∈ seen then removeDuplicates.loop arr seen result
      else removeDuplicates.loop arr (item :: seen) (result ++ [item])

/-- Function `removeDuplicates(arr)`. -/
def removeDuplicates (arr : List DataType) : List DataType :=
  removeDuplicates.loop arr [] []

mutual
/-- Body of `simplifyType(data)` for a non-null `data`. -/
def simplifyData : DataType → Option DataType
  | .multiple val =>
      match removeDuplicates (simplifyList val).reduceOption with
      | [] => none
      | [v] => some v
      | uniqueVals => some (.multiple (uniqueVals.map some))
  | .agalVal type val => some (.agalVal type (simplifyType val))
  | .instancia props name => some (.instancia (simplifyProps props) name)
  | .clase static_props instance_props name =>
      some (.clase (simplifyProps static_props) (simplifyProps instance_props) name)
  | .val cls val =>
      if cls = .ret ∨ cls = .«constructor» ∨ cls = .item then some (.val cls (simplifyType val))
      else some (.val cls val)
  | .fn cls params ret => some (.fn cls (simplifyList params) (simplifyType ret))
  | data => some data
/-- Function `simplifyType(data)`. -/
def simplifyType : Option DataType → Option DataType
  | none => none
  | some data => simplifyData data
/-- Expression `arr.map(simplifyType)`. -/
def simplifyList : List (Option DataType) → List (Option DataType)
  | [] => []
  | d :: arr => simplifyType d :: simplifyList arr
/-- Loop `for (const key in props) props[key] = simplifyType(props[key])`. -/
def simplifyProps : List (String × Option DataType) → List (String × Option DataType)
  | [] => []
  | (key, d) :: props => (key, simplifyType d) :: simplifyProps props
end

/-- Reference definition of deduplication: the first occurrence of every
element stays, in order; later structural duplicates go. -/
def dedupFirst : List DataType → List DataType
  | [] => []
  | x :: xs => x :: (dedupFirst xs).filter (fun y => decide (y ≠ x))

/-- Reference definition of union simplification, after the specification. -/
def simplifyUnionSpec (xs : List (Option DataType)) : Option DataType :=
  match dedupFirst ((xs.map simplifyType).reduceOption) with
  | [] => none
  | [y] => some y
  | ys => some (.multiple (ys.map some))

/-! ## Token index -/

/-- Typedef `SemanticToken`. -/
structure SemanticToken where
  definition : Position
  location : Location
  token_type : String
  token_modifier : List String
  data_type : Option DataType
  is_original_decl : Bool
deriving DecidableEq

/-- The part of `vscode.TextDocument` the index reads. -/
structure TextDocument where
  fileName : String
  version : Nat
  getText : String

/-- The object thrown by `#read` for an error reported by the backend. -/
structure Diagnostic where
  message : String
  line : Int
  column : Int
  length : Nat
  file : String
deriving DecidableEq

/-- What one launch of the backend (`cp.execSync` followed by `JSON.parse`)
comes to inside `#read`: the parsed `{file, mod}` object, an error whose
`stderr` starts with the error banner (rethrown as a `Diagnostic`), or any
other failure (logged, `[]` returned). -/
inductive ExecResult where
  | output (file : List SemanticToken) (mod : Option DataType)
  | error (d : Diagnostic)
  | failure

/-- The collaborators outside the extension: `execSync n file` is the outcome
of the launch of the backend on `file` after `n` earlier launches, `hash` is
`AgaTokenizer.#hash` (SHA-256 in hexadecimal). -/
structure Host where
  execSync : Nat → String → ExecResult
  hash : String → String

/-- The position argument `{character, line}` of `find` and `filter`. -/
structure Pos where
  character : Nat
  line : Nat
deriving DecidableEq

/-- Class `AgaTokenizer`: the four private records, and the count of backend
launches so far (instrumentation, not a field of the class). -/
structure AgaTokenizer where
  tokens : String → Option (List SemanticToken)
  mod : String → Option DataType
  hashes : String → Option String
  versions : String → Option Nat
  launched : Nat

/-- Expression `new AgaTokenizer()`. -/
def AgaTokenizer.new : AgaTokenizer :=
  { tokens := fun _ => none, mod := fun _ => none, hashes := fun _ => none,
    versions := fun _ => none, launched := 0 }

/-- Method `readMod(file)`. -/
def AgaTokenizer.readMod (t : AgaTokenizer) (file : String) : Option DataType :=
  t.mod file

/-- Method `#read(file)`: the value returned or the object thrown, and the state after. -/
def AgaTokenizer.read_private (h : Host) (t : AgaTokenizer) (file : String) :
    Except Diagnostic (List SemanticToken) × AgaTokenizer :=
  match h.execSync t.launched file with
  | .output file_tokens mod =>
      (.ok file_tokens,
        { t with launched := t.launched + 1, mod := Function.update t.mod file mod })
  | .error d => (.error d, { t with launched := t.launched + 1 })
  | .failure => (.ok [], { t with launched := t.launched + 1 })

/-- Method `maybeUpdate(doc)`. -/
def AgaTokenizer.maybeUpdate (h : Host) (t : AgaTokenizer) (doc : TextDocument) :
    Bool × AgaTokenizer :=
  if (t.tokens doc.fileName).isNone then (true, t)
  else if t.versions doc.fileName = some doc.version then (false, t)
  else if t.hashes doc.fileName = some (h.hash doc.getText) then (false, t)
  else (true, { t with tokens := Function.update t.tokens doc.fileName none })

/-- Method `clear(file)`. -/
def AgaTokenizer.clear (t : AgaTokenizer) (file : String) : AgaTokenizer :=
  { t with
    tokens := Function.update t.tokens file none
    hashes := Function.update t.hashes file none
    versions := Function.update t.versions file none }

/-- The comparison function given to `sort` in `read`. -/
def compareStart (a b : SemanticToken) : Int :=
  if a.location.start.line = b.location.start.line then
    (a.location.start.column : Int) - (b.location.start.column : Int)
  else (a.location.start.line : Int) - (b.location.start.line : Int)

/-- Expression `arr.sort(compareStart)`: `Array.prototype.sort` is a stable sort. -/
def sortTokens (arr : List SemanticToken) : List SemanticToken :=
  arr.insertionSort (fun a b => compareStart a b ≤ 0)

/-- Method `read(doc)`. -/
def AgaTokenizer.read (h : Host) (t : AgaTokenizer) (doc : TextDocument) :
    Except Diagnostic (List SemanticToken) × AgaTokenizer :=
  match t.maybeUpdate h doc with
  | (true, t1) =>
      match t1.read_private h doc.fileName with
      | (.ok raw, t2) =>
          (.ok (sortTokens raw),
            { t2 with tokens := Function.update t2.tokens doc.fileName (some (sortTokens raw)) })
      | (.error d, t2) => (.error d, t2)
  | (false, t1) => (.ok ((t1.tokens doc.fileName).getD []), t1)

/-- The predicate given to `find` and `filter`. -/
def covers (pos : Pos) (token : SemanticToken) : Bool :=
  let s := token.location.start
  let e := token.location.«end»
  (decide (s.line < pos.line) || (decide (s.line = pos.line) && decide (s.column ≤ pos.character))) &&
  (decide (e.line > pos.line) || (decide (e.line = pos.line) && decide (e.column ≥ pos.character)))

/-- Method `find(doc, pos)`. -/
def AgaTokenizer.find (h : Host) (t : AgaTokenizer) (doc : TextDocument) (pos : Pos) :
    Except Diagnostic (Option SemanticToken) × AgaTokenizer :=
  match t.read h doc with
  | (.ok arr, t1) => (.ok (arr.find? (covers pos)), t1)
  | (.error d, t1) => (.error d, t1)

/-- Method `filter(doc, pos)`. -/
def AgaTokenizer.filter (h : Host) (t : AgaTokenizer) (doc : TextDocument) (pos : Pos) :
    Except Diagnostic (List SemanticToken) × AgaTokenizer :=
  match t.read h doc with
  | (.ok arr, t1) => (.ok (arr.filter (covers pos)), t1)
  | (.error d, t1) => (.error d, t1)

/-- Reference definition of containment, after the specification:
`start ≤ position ≤ end` in the lexicographic order of (line, column). -/
def Location.contains (l : Location) (line column : Nat) : Prop :=
  toLex (l.start.line, l.start.column) ≤ toLex (line, column) ∧
  toLex (line, column) ≤ toLex (l.«end».line, l.«end».column)

/-- Reference definition of the order of the token sequence, after the
specification: non-decreasing by (start.line, start.column). -/
def startLe (a b : SemanticToken) : Prop :=
  toLex (a.location.start.line, a.location.start.column)
    ≤ toLex (b.location.start.line, b.location.start.column)

/-- Reference definition of the result of `findAt`, after the specification:
the first token of the sequence whose location contains the position, or no
token when none contains it. -/
def FirstContaining (ts : List SemanticToken) (line column : Nat) :
    Option SemanticToken → Prop
  | some tok =>
      ∃ i : Nat, ts[i]? = some tok ∧ tok.location.contains line column ∧
        ∀ j : Nat, j < i → ∀ u : SemanticToken, ts[j]? = some u →
          ¬ u.location.contains line column
  | none => ∀ u : SemanticToken, u ∈ ts → ¬ u.location.contains line column

/-- The states of the index reached from `new AgaTokenizer()` by calls of
`read`, `find`, `filter`, `maybeUpdate` and `clear`, whatever they return. -/
inductive Reachable (h : Host) : AgaTokenizer → Prop where
  | new : Reachable h AgaTokenizer.new
  | read (t : AgaTokenizer) (doc : TextDocument) :
      Reachable h t → Reachable h (t.read h doc).2
  | find (t : AgaTokenizer) (doc : TextDocument) (pos : Pos) :
      Reachable h t → Reachable h (t.find h doc pos).2
  | filter (t : AgaTokenizer) (doc : TextDocument) (pos : Pos) :
      Reachable h t → Reachable h (t.filter h doc pos).2
  | maybeUpdate (t : AgaTokenizer) (doc : TextDocument) :
      Reachable h t → Reachable h (t.maybeUpdate h doc).2
  | clear (t : AgaTokenizer) (file : String) :
      Reachable h t → Reachable h (t.clear file)

/-! ## Type resolver -/

/-- Outcome of a call that may throw or fail to return: the value returned
with the state after, the object thrown with the state after, or no outcome
within the recursion depth allowed. -/
inductive Run (α : Type) where
  | ret (a : α) (t : AgaTokenizer)
  | thrown (d : Diagnostic) (t : AgaTokenizer)
  | diverge

/-- Continue a run with the value it returned. -/
def Run.andThen {α β : Type} (r : Run α) (k : α → AgaTokenizer → Run β) : Run β :=
  match r with
  | .ret a t => k a t
  | .thrown d t => .thrown d t
  | .diverge => .diverge

/-- Expression `arr.map(dt => resolveDataType(doc, tokenizer, dt))`, the
elements being resolved from left to right by `resolve`. -/
def resolveAll (resolve : AgaTokenizer → Option DataType → Run (Option DataType)) :
    AgaTokenizer → List (Option DataType) → Run (List (Option DataType))
  | t, [] => .ret [] t
  | t, dt :: arr =>
      (resolve t dt).andThen fun r t1 =>
        (resolveAll resolve t1 arr).andThen fun rs t2 => .ret (r :: rs) t2

/-- Function `resolveDataType(doc, tokenizer, dataType)`; the first argument
bounds the depth of nested calls. -/
def resolveDataType (h : Host) (doc : TextDocument) :
    Nat → AgaTokenizer → Option DataType → Run (Option DataType)
  | 0, _, _ => .diverge
  | _ + 1, t, none => .ret none t
  | n + 1, t, some (.multiple val) =>
      (resolveAll (resolveDataType h doc n) t val).andThen fun rs t1 =>
        .ret (some (.multiple rs)) t1
  | n + 1, t, some (.fn cls params ret) =>
      (resolveAll (resolveDataType h doc n) t params).andThen fun ps t1 =>
        (resolveDataType h doc n t1 ret).andThen fun r t2 => .ret (some (.fn cls ps r)) t2
  | n + 1, t, some (.agalVal type val) =>
      (resolveDataType h doc n t val).andThen fun r t1 => .ret (some (.agalVal type r)) t1
  | n + 1, t, some (.val cls val) =>
      if cls = .ret ∨ cls = .«constructor» ∨ cls = .item then
        (resolveDataType h doc n t val).andThen fun r t1 => .ret (some (.val cls r)) t1
      else .ret (some (.val cls val)) t
  | n + 1, t, some (.id location) =>
      match t.find h doc { line := location.start.line, character := location.start.column } with
      | (.error d, t1) => .thrown d t1
      | (.ok found, t1) =>
          match found.bind (fun token => token.data_type) with
          | none => .ret none t1
          | some token => resolveDataType h doc n t1 (some token)
  | _ + 1, t, some dataType => .ret (some dataType) t

/-- The call `resolveDataType(doc, tokenizer, dataType)` made in state `t`
comes to the outcome `r` (a return or a throw). -/
def Resolves (h : Host) (doc : TextDocument) (t : AgaTokenizer) (dataType : Option DataType)
    (r : Run (Option DataType)) : Prop :=
  r ≠ .diverge ∧ ∃ n, resolveDataType h doc n t dataType = r

mutual
/-- The identifiers of a type tree at the places `resolveDataType` visits: the
root, the alternatives of a union, the parameters and return type of a
function, and the value of a wrapper other than `promesa`. -/
def identifiersOf : DataType → List Location
  | .id location => [location]
  | .multiple val => identifiersOfAll val
  | .fn _ params ret => identifiersOfAll params ++ identifiersOfOpt ret
  | .agalVal _ val => identifiersOfOpt val
  | .val cls val => if cls = .promesa then [] else identifiersOfOpt val
  | _ => []
/-- The identifiers of a nullable type tree, as `identifiersOf`. -/
def identifiersOfOpt : Option DataType → List Location
  | none => []
  | some d => identifiersOf d
/-- The identifiers of an array of nullable type trees, as `identifiersOf`. -/
def identifiersOfAll : List (Option DataType) → List Location
  | [] => []
  | d :: arr => identifiersOfOpt d ++ identifiersOfAll arr
end

/-- The data type declared for an identifier by the token sequence `ts`: that
of the first token covering the start of the identifier, if it carries one. -/
def declaredType (ts : List SemanticToken) (location : Location) : Option DataType :=
  (ts.find? (covers { line := location.start.line, character := location.start.column })).bind
    (fun token => token.data_type)

/-- The declarations of the token sequence `ts` are not cyclic: the identifiers
can be ranked so that the type declared for an identifier only holds
identifiers of lower rank. -/
def Acyclic (ts : List SemanticToken) : Prop :=
  ∃ rank : Location → Nat, ∀ (l : Location) (d : DataType), declaredType ts l = some d →
    ∀ l2 ∈ identifiersOf d, rank l2 < rank l

/-- No version and no content hash is recorded for the file. -/
def Unstamped (t : AgaTokenizer) (file : String) : Prop :=
  t.versions file = none ∧ t.hashes file = none

/-! ## Type printer -/

/-- Expression `s.replaceAll(c, r)` for a pattern `c` of one character. -/
def replaceAll (s : String) (c : Char) (r : String) : String :=
  String.join (s.data.map fun x => if x = c then r else String.singleton x)

/-- The pieces of `s.split(c)` for a separator `c` of one character. -/
def splitChars (c : Char) : List Char → List (List Char)
  | [] => [[]]
  | x :: xs =>
      match splitChars c xs with
      | [] => [[]]
      | piece :: pieces => if x = c then [] :: piece :: pieces else (x :: piece) :: pieces

/-- Expression `s.split(c).join(sep)` for a separator `c` of one character. -/
def splitJoin (s : String) (c : Char) (sep : String) : String :=
  sep.intercalate ((splitChars c s.data).map String.mk)

/-- White space and line terminators, the characters `trimEnd` removes. -/
def isWhiteSpace (c : Char) : Bool :=
  c.toNat ∈ [0x9, 0xA, 0xB, 0xC, 0xD, 0x20, 0xA0, 0x1680, 0x2000, 0x2001, 0x2002, 0x2003,
    0x2004, 0x2005, 0x2006, 0x2007, 0x2008, 0x2009, 0x200A, 0x2028, 0x2029, 0x202F, 0x205F,
    0x3000, 0xFEFF]

/-- Expression `s.trimEnd()`. -/
def trimEnd (s : String) : String :=
  String.mk (s.data.reverse.dropWhile isWhiteSpace).reverse

/-- Expression `s.substring(0, n)`. -/
def substring0 (s : String) (n : Int) : String :=
  String.mk (s.data.take n.toNat)

/-- Expression `s.charAt(0).toUpperCase() + s.slice(1)`. -/
def capitalize (s : String) : String :=
  match s.data with
  | [] => ""
  | c :: cs => String.mk (c.toUpper :: cs)

/-- The string tag of an `AgalType`. -/
def AgalType.tag : AgalType → String
  | .numero => "numero"
  | .byte => "byte"
  | .nada => "nada"
  | .buleano => "buleano"
  | .caracter => "caracter"

/-- The string tag of an `AgalValType`. -/
def AgalValType.tag : AgalValType → String
  | .referencia => "referencia"
  | .lista => "lista"
  | .iterable => "iterable"

/-- A budget: `none` is `Infinity`, `some n` the integer `n`. -/
abbrev Budget := Option Int

/-- Expression `maxLength - k`. -/
def Budget.minus (maxLength : Budget) (k : Int) : Budget :=
  maxLength.map (fun m => m - k)

/-- Statement `if (maxLength <= 0) maxLength = 0`. -/
def Budget.clamp (maxLength : Budget) : Budget :=
  maxLength.map (fun m => if m ≤ 0 then 0 else m)

/-- Condition `part.length + length <= maxLength`. -/
def Budget.fits (partLength : Nat) (length maxLength : Budget) : Bool :=
  match length, maxLength with
  | some l, some m => decide ((partLength : Int) + l ≤ m)
  | some _, none => true
  | none, none => true
  | none, some _ => false

/-- Condition `n > budget`. -/
def Budget.exceededBy (budget : Budget) (n : Nat) : Bool :=
  match budget with
  | some b => decide ((n : Int) > b)
  | none => false

/-- The constant `string` of the `cadena` branch: `val` with its special
characters escaped and its line breaks escaped or continued. -/
def escapeCadena (val : String) (multilineString : Option Bool) : String :=
  let preString :=
    replaceAll (replaceAll (replaceAll (replaceAll (replaceAll val '\\' "\\\\") '\'' "\\'")
      '\r' "\\r") '\t' "\\t") (Char.ofNat 0) "\\0"
  if multilineString = some false then replaceAll preString '\n' "\\n"
  else splitJoin preString '\n' "\\n' +\n'"

/-- The rendering of a string literal type with known value `val`, contents shown. -/
def cadenaToString (val : String) (maxLength : Budget) (multilineString : Option Bool) : String :=
  let string := escapeCadena val multilineString
  match maxLength with
  | some m =>
      if (string.length : Int) + 2 ≤ m then "'" ++ string ++ "'"
      else if (string.length : Int) + 2 ≥ m ∧ m ≥ 5 then
        "'" ++ trimEnd (substring0 string (m - 2)) ++ "...'"
      else "'...'"
  | none => "'" ++ string ++ "'"

/-- The value of `identifier` in the `member` branch. -/
def memberIdentifier : DataType → Option String
  | .cadena (some val) => if val.length ≠ 0 then some val else none
  | _ => none

mutual
/-- Body of `typeToString` for a non-null `dataType`; `maxLength` is the
argument as passed, clamped here. -/
def typeToStringData (multilineString showString : Option Bool) :
    DataType → Budget → String
  | .cadena val, maxLength0 =>
      let maxLength := Budget.clamp maxLength0
      match val with
      | some v => if showString ≠ some false then cadenaToString v maxLength multilineString
                  else capitalize "cadena"
      | none => capitalize "cadena"
  | .agalVal type val, maxLength0 =>
      let maxLength := Budget.clamp maxLength0
      match type with
      | .lista =>
          let content := typeToString multilineString showString val (maxLength.minus 2)
          if content.length = 0 then content else "[" ++ content ++ "]"
      | .iterable =>
          let content := typeToString multilineString showString val (maxLength.minus 1)
          if content.length = 0 then content else "@" ++ content
      | .referencia => capitalize AgalValType.referencia.tag
  | .agal type, _ => capitalize type.tag
  | .fn .fn params ret, maxLength0 =>
      let maxLength := Budget.clamp maxLength0
      "fn (" ++ ", ".intercalate (typeToStringAll multilineString showString params (maxLength.minus 9))
        ++ ")\x7b " ++ typeToString multilineString showString ret (maxLength.minus 9) ++ " \x7d"
  | .clase _ _ name, _ => "clase " ++ name
  | .fn .constructor_fn _ ret, maxLength0 =>
      let maxLength := Budget.clamp maxLength0
      "clase " ++ typeToString multilineString showString ret (maxLength.minus 6)
  | .val .«constructor» val, maxLength0 =>
      let maxLength := Budget.clamp maxLength0
      "clase " ++ typeToString multilineString showString val (maxLength.minus 6)
  | .multiple val, maxLength0 =>
      let maxLength := Budget.clamp maxLength0
      typeToStringMultiple multilineString showString val maxLength ""
  | .instancia _ name, _ => name
  | .mod path, _ => "importa '" ++ path ++ "'"
  | .param _ index, _ => "Param_" ++ toString index ++ "?"
  | .params _, _ => "@Params?"
  | .val .item val, maxLength0 =>
      let maxLength := Budget.clamp maxLength0
      "Elemento<" ++ typeToString multilineString showString val (maxLength.minus 10) ++ ">"
  | .val .promesa val, maxLength0 =>
      let maxLength := Budget.clamp maxLength0
      "asinc " ++ typeToString multilineString showString val (maxLength.minus 6)
  | .val .ret val, maxLength0 =>
      let maxLength := Budget.clamp maxLength0
      "ret " ++ typeToString multilineString showString val (maxLength.minus 4)
  | .member object member is_instance, maxLength0 =>
      let maxLength := Budget.clamp maxLength0
      let memberString :=
        match memberIdentifier member with
        | some identifier => (if is_instance then "::" else ".") ++ identifier
        | none =>
            (if is_instance then "::" else "") ++ "["
              ++ typeToStringData multilineString showString member
                  (maxLength.minus (if is_instance then 4 else 2))
              ++ "]"
      let restLength := maxLength.minus memberString.length
      let object := typeToStringData multilineString showString object restLength
      "(" ++ (if restLength.exceededBy object.length then "..." else object) ++ ")" ++ memberString
  | .id location, _ => toString location.start.line ++ "," ++ toString location.start.column
  | .llamada callee args, maxLength0 =>
      let maxLength := Budget.clamp maxLength0
      let callee := typeToStringData multilineString showString callee (maxLength.minus 5)
      typeToStringArgs multilineString showString args maxLength callee "" ++ ")"
/-- Function `typeToString(dataType, {maxLength, multilineString, showString})`. -/
def typeToString (multilineString showString : Option Bool) :
    Option DataType → Budget → String
  | none, _ => "Desconocido"
  | some dataType, maxLength => typeToStringData multilineString showString dataType maxLength
/-- Expression `params.map(d => typeToString(d, {maxLength, multilineString, showString}))`. -/
def typeToStringAll (multilineString showString : Option Bool) :
    List (Option DataType) → Budget → List String
  | [], _ => []
  | d :: params, maxLength =>
      typeToString multilineString showString d maxLength
        :: typeToStringAll multilineString showString params maxLength
/-- The loop of the `multiple` branch over the alternatives left, `string`
being the text built so far. -/
def typeToStringMultiple (multilineString showString : Option Bool) :
    List (Option DataType) → Budget → String → String
  | [], _, string => string
  | data :: val, maxLength, string0 =>
      let string := if string0.length ≠ 0 then string0 ++ " | " else string0
      let length := maxLength.minus string.length
      let part := typeToString multilineString showString data length
      if Budget.fits part.length length maxLength then
        typeToStringMultiple multilineString showString val maxLength (string ++ part)
      else string ++ "..."
/-- The loop of the `llamada` branch over the arguments left, `string`
being the text built so far. -/
def typeToStringArgs (multilineString showString : Option Bool) :
    List (Option DataType) → Budget → String → String → String
  | [], _, _, string => string
  | data :: args, maxLength, callee, string0 =>
      let string := if string0.length ≠ 0 then string0 ++ ", " else string0 ++ (callee ++ "(")
      let length := maxLength.minus string.length
      let part := typeToString multilineString showString data length
      if Budget.fits part.length length maxLength then
        typeToStringArgs multilineString showString args maxLength callee (string ++ part)
      else string ++ "..."
end

/-! ## Sample inputs -/

/-- A variable token from `(l1, c1)` to `(l2, c2)` carrying `data_type`. -/
def sampleToken (l1 c1 l2 c2 : Nat) (data_type : Option DataType) : SemanticToken :=
  { definition := ⟨l1, c1⟩, location := ⟨⟨l1, c1⟩, ⟨l2, c2⟩⟩, token_type := "Variable",
    token_modifier := [], data_type := data_type, is_original_decl := false }

/-- An open document. -/
def sampleDoc : TextDocument :=
  { fileName := "demo.agal", version := 1, getText := "def x = 1;" }

/-- A backend that delivers the tokens `file` at every launch. -/
def sampleHost (file : List SemanticToken) : Host :=
  { execSync := fun _ _ => .output file none, hash := fun content => content }

/-- A backend whose answer names the launch: launch `n` delivers one token at column `n`. -/
def countingHost : Host :=
  { execSync := fun n _ => .output [sampleToken 0 n 0 (n + 1) none] none,
    hash := fun content => content }

/-- The location `(1,0)-(1,3)`. -/
def sampleLocation : Location := ⟨⟨1, 0⟩, ⟨1, 3⟩⟩

/-- The records of `t` and `u` hold the same entries for the file `g`. -/
def AgreeAt (t u : AgaTokenizer) (g : String) : Prop :=
  t.tokens g = u.tokens g ∧ t.hashes g = u.hashes g ∧ t.versions g = u.versions g ∧
    t.mod g = u.mod g

/-- A backend that delivers the tokens `file` and the module descriptor `mod` at every launch. -/
def moduleHost (file : List SemanticToken) (mod : DataType) : Host :=
  { execSync := fun _ _ => .output file (some mod), hash := fun content => content }

/-- A diagnostic of the backend. -/
def sampleDiagnostic : Diagnostic :=
  { message := "token inesperado", line := 0, column := 4, length := 1, file := "demo.agal" }

/-- A backend that delivers the tokens `file` at its first launch and reports
an error at every later launch. -/
def failingHost (file : List SemanticToken) : Host :=
  { execSync := fun n _ => if n = 0 then .output file none else .error sampleDiagnostic,
    hash := fun content => content }

/-- A token sequence with a cyclic declaration: the token at `(1,0)-(1,3)` is
declared with the identifier of its own location as data type. -/
def cyclicTokens : List SemanticToken :=
  [sampleToken 1 0 1 3 (some (.id sampleLocation))]

/-- A token sequence with a chain of declarations: the token at `(1,0)-(1,3)`
is declared with the identifier at `(2,0)-(2,3)`, which is declared a number. -/
def chainTokens : List SemanticToken :=
  [sampleToken 1 0 1 3 (some (.id ⟨⟨2, 0⟩, ⟨2, 3⟩⟩)), sampleToken 2 0 2 3 (some (.agal .numero))]

/-! ## Simplifier: auxiliary facts -/

theorem simplifyList_eq_map (xs : List (Option DataType)) :
    simplifyList xs = xs.map simplifyType := by
  induction xs with
  | nil => simp [simplifyList]
  | cons x xs ih => simp [simplifyList, ih]

theorem simplifyProps_eq_map (ps : List (String × Option DataType)) :
    simplifyProps ps = ps.map (fun p => (p.1, simplifyType p.2)) := by
  induction ps with
  | nil => simp [simplifyProps]
  | cons p ps ih =>
    obtain ⟨k, v⟩ := p
    simp [simplifyProps, ih]

theorem removeDuplicates_loop_eq (arr seen result : List DataType) :
    removeDuplicates.loop arr seen result
      = result ++ (dedupFirst arr).filter (fun y => decide (y ∉ seen)) := by
  induction arr generalizing seen result with
  | nil => simp [removeDuplicates.loop, dedupFirst]
  | cons item arr ih =>
    unfold removeDuplicates.loop
    by_cases hmem : item ∈ seen
    · simp only [hmem, if_true, dedupFirst]
      rw [ih, List.filter_cons_of_neg (by simpa using hmem), List.filter_filter]
      congr 1
      apply List.filter_congr
      intro y _
      by_cases hy : y ∈ seen
      · simp [hy]
      · have : y ≠ item := fun e => hy (e ▸ hmem)
        simp [hy, this]
    · simp only [hmem, if_false, dedupFirst]
      rw [ih, List.filter_cons_of_pos (by simpa using hmem), List.filter_filter]
      simp only [List.append_assoc, List.singleton_append]
      congr 2
      apply List.filter_congr
      intro y _
      simp [List.mem_cons, not_or, Bool.and_comm]

theorem removeDuplicates_eq_dedupFirst (arr : List DataType) :
    removeDuplicates arr = dedupFirst arr := by
  simp [removeDuplicates, removeDuplicates_loop_eq]

theorem mem_dedupFirst (y : DataType) (xs : List DataType) :
    y ∈ dedupFirst xs ↔ y ∈ xs := by
  induction xs with
  | nil => simp [dedupFirst]
  | cons x xs ih =>
    simp only [dedupFirst, List.mem_cons, List.mem_filter, ih]
    by_cases h : y = x <;> simp [h]

theorem dedupFirst_nodup (xs : List DataType) : (dedupFirst xs).Nodup := by
  induction xs with
  | nil => simp [dedupFirst]
  | cons x xs ih =>
    simp only [dedupFirst, List.nodup_cons]
    exact ⟨by simp [List.mem_filter], ih.filter _⟩

theorem dedupFirst_of_nodup (xs : List DataType) (h : xs.Nodup) : dedupFirst xs = xs := by
  induction xs with
  | nil => simp [dedupFirst]
  | cons x xs ih =>
    rw [List.nodup_cons] at h
    simp only [dedupFirst, ih h.2]
    congr 1
    rw [List.filter_eq_self]
    intro y hy
    have : y ≠ x := fun e => h.1 (e ▸ hy)
    simpa using this

theorem reduceOption_map_some (ys : List DataType) :
    (ys.map some).reduceOption = ys := by
  induction ys with
  | nil => rfl
  | cons y ys ih => simp [List.reduceOption_cons_of_some, ih]

theorem simplifyData_multiple (val : List (Option DataType)) :
    simplifyData (.multiple val) = simplifyUnionSpec val := by
  rw [simplifyData, simplifyUnionSpec, simplifyList_eq_map, removeDuplicates_eq_dedupFirst]


theorem simplifyUnionSpec_idem (val : List (Option DataType))
    (h : ∀ x ∈ val, simplifyType (simplifyType x) = simplifyType x) :
    simplifyType (simplifyUnionSpec val) = simplifyUnionSpec val := by
  have hy : ∀ y ∈ dedupFirst ((val.map simplifyType).reduceOption),
      simplifyType (some y) = some y := by
    intro y hy
    rw [mem_dedupFirst] at hy
    have hy2 : some y ∈ val.map simplifyType := by
      simpa [List.reduceOption, List.mem_filterMap] using hy
    obtain ⟨x, hx, hxy⟩ := List.mem_map.1 hy2
    have := h x hx
    rwa [hxy] at this
  have hnd := dedupFirst_nodup ((val.map simplifyType).reduceOption)
  unfold simplifyUnionSpec
  generalize dedupFirst ((val.map simplifyType).reduceOption) = ys at hy hnd
  match ys, hy, hnd with
  | [], _, _ => simp [simplifyType]
  | [v], hy, _ => simpa using hy v (by simp)
  | a :: b :: rest, hy, hnd =>
    have hmap : ((a :: b :: rest).map some).map simplifyType = (a :: b :: rest).map some := by
      rw [List.map_map]
      apply List.map_congr_left
      intro y hy2
      exact hy y hy2
    show simplifyType (some (.multiple ((a :: b :: rest).map some)))
      = some (.multiple ((a :: b :: rest).map some))
    rw [simplifyType, simplifyData_multiple, simplifyUnionSpec, hmap, reduceOption_map_some,
      dedupFirst_of_nodup _ hnd]

mutual
theorem simplifyData_idem : ∀ (d : DataType), simplifyType (simplifyData d) = simplifyData d
  | .agal t => by simp [simplifyData, simplifyType]
  | .agalVal t v => by simp [simplifyData, simplifyType, simplifyType_idem v]
  | .cadena v => by simp [simplifyData, simplifyType]
  | .id l => by simp [simplifyData, simplifyType]
  | .params l => by simp [simplifyData, simplifyType]
  | .param l i => by simp [simplifyData, simplifyType]
  | .instancia props name => by
      have h := simplifyProps_idem props
      simp only [simplifyData, simplifyType, simplifyProps_eq_map, List.map_map]
      congr 2
      apply List.map_congr_left
      intro p hp
      simp [h p hp]
  | .val cls v => by
      have h := simplifyType_idem v
      cases cls <;> simp [simplifyData, simplifyType, h]
  | .member o m i => by simp [simplifyData, simplifyType]
  | .multiple val => by
      rw [simplifyData_multiple]
      exact simplifyUnionSpec_idem val (simplifyList_idem val)
  | .llamada c a => by simp [simplifyData, simplifyType]
  | .fn cls ps r => by
      have h := simplifyList_idem ps
      simp only [simplifyData, simplifyType, simplifyList_eq_map, List.map_map,
        simplifyType_idem r]
      congr 2
      apply List.map_congr_left
      intro p hp
      simp [h p hp]
  | .mod p => by simp [simplifyData, simplifyType]
  | .clase sp ip name => by
      have h1 := simplifyProps_idem sp
      have h2 := simplifyProps_idem ip
      simp only [simplifyData, simplifyType, simplifyProps_eq_map, List.map_map]
      congr 2
      · apply List.map_congr_left
        intro p hp
        simp [h1 p hp]
      · apply List.map_congr_left
        intro p hp
        simp [h2 p hp]
theorem simplifyType_idem : ∀ (o : Option DataType),
    simplifyType (simplifyType o) = simplifyType o
  | none => by simp [simplifyType]
  | some d => by
      rw [simplifyType]
      exact simplifyData_idem d
theorem simplifyList_idem : ∀ (xs : List (Option DataType)),
    ∀ x ∈ xs, simplifyType (simplifyType x) = simplifyType x
  | [] => by simp
  | x :: xs => by
      intro y hy
      rcases List.mem_cons.1 hy with rfl | hy
      · exact simplifyType_idem _
      · exact simplifyList_idem xs y hy
theorem simplifyProps_idem : ∀ (ps : List (String × Option DataType)),
    ∀ p ∈ ps, simplifyType (simplifyType p.2) = simplifyType p.2
  | [] => by simp
  | (k, v) :: ps => by
      intro y hy
      rcases List.mem_cons.1 hy with rfl | hy
      · exact simplifyType_idem v
      · exact simplifyProps_idem ps y hy
end

/-! ## Token index: auxiliary facts -/

theorem covers_iff_contains (pos : Pos) (token : SemanticToken) :
    covers pos token = true ↔ token.location.contains pos.line pos.character := by
  simp only [covers, Location.contains, Prod.Lex.le_iff, Bool.and_eq_true, Bool.or_eq_true,
    decide_eq_true_eq, ge_iff_le, gt_iff_lt]
  constructor
  · rintro ⟨h1, h2⟩
    refine ⟨h1, ?_⟩
    rcases h2 with h2 | ⟨h2, h3⟩
    · exact Or.inl h2
    · exact Or.inr ⟨h2.symm, h3⟩
  · rintro ⟨h1, h2⟩
    refine ⟨h1, ?_⟩
    rcases h2 with h2 | ⟨h2, h3⟩
    · exact Or.inl h2
    · exact Or.inr ⟨h2.symm, h3⟩

theorem firstContaining_find (ts : List SemanticToken) (pos : Pos) :
    FirstContaining ts pos.line pos.character (ts.find? (covers pos)) := by
  induction ts with
  | nil => simp [FirstContaining]
  | cons a ts ih =>
    by_cases ha : covers pos a = true
    · rw [List.find?_cons_of_pos _ ha]
      refine ⟨0, by simp, (covers_iff_contains pos a).1 ha, ?_⟩
      intro j hj
      omega
    · rw [List.find?_cons_of_neg _ ha]
      have hna : ¬ a.location.contains pos.line pos.character :=
        fun hc => ha ((covers_iff_contains pos a).2 hc)
      cases hf : ts.find? (covers pos) with
      | none =>
        rw [hf] at ih
        intro u hu
        rcases List.mem_cons.1 hu with rfl | hu
        · exact hna
        · exact ih u hu
      | some tok =>
        rw [hf] at ih
        obtain ⟨i, hi, hc, hlt⟩ := ih
        refine ⟨i + 1, by simpa using hi, hc, ?_⟩
        intro j hj u hu
        cases j with
        | zero =>
          simp only [List.getElem?_cons_zero, Option.some.injEq] at hu
          exact hu ▸ hna
        | succ j =>
          simp only [List.getElem?_cons_succ] at hu
          exact hlt j (by omega) u hu

theorem compareStart_le_iff (a b : SemanticToken) : compareStart a b ≤ 0 ↔ startLe a b := by
  unfold compareStart startLe
  rw [Prod.Lex.le_iff]
  simp only
  split <;> rename_i hl
  · constructor
    · intro hc
      exact Or.inr ⟨hl, by omega⟩
    · rintro (hc | ⟨_, hc⟩) <;> omega
  · constructor
    · intro hc
      exact Or.inl (by omega)
    · rintro (hc | ⟨hc, _⟩)
      · omega
      · exact absurd hc hl

theorem sortTokens_perm (arr : List SemanticToken) : (sortTokens arr).Perm arr :=
  List.perm_insertionSort _ arr

theorem sortTokens_sorted (arr : List SemanticToken) : (sortTokens arr).Pairwise startLe := by
  haveI : IsTotal SemanticToken (fun a b => compareStart a b ≤ 0) :=
    ⟨fun a b => by
      simp only [compareStart_le_iff, startLe]
      exact le_total _ _⟩
  haveI : IsTrans SemanticToken (fun a b => compareStart a b ≤ 0) :=
    ⟨fun a b c => by
      simp only [compareStart_le_iff, startLe]
      exact le_trans⟩
  have hs : (sortTokens arr).Sorted (fun a b => compareStart a b ≤ 0) :=
    List.sorted_insertionSort _ arr
  exact List.Pairwise.imp (fun {a b} hab => (compareStart_le_iff a b).1 hab) hs

theorem read_of_refresh (h : Host) (t : AgaTokenizer) (doc : TextDocument)
    (raw : List SemanticToken)
    (hupd : (t.maybeUpdate h doc).1 = true)
    (hraw : ((t.maybeUpdate h doc).2.read_private h doc.fileName).1 = .ok raw) :
    (t.read h doc).1 = .ok (sortTokens raw) ∧
      (t.read h doc).2.tokens doc.fileName = some (sortTokens raw) := by
  unfold AgaTokenizer.read
  rcases hm : t.maybeUpdate h doc with ⟨b, t1⟩
  rw [hm] at hupd hraw
  simp only at hupd hraw
  subst hupd
  rcases hp : t1.read_private h doc.fileName with ⟨r, t2⟩
  rw [hp] at hraw
  simp only at hraw
  subst hraw
  simp [hp]


/-! ## Printer: auxiliary facts -/

theorem string_eq_empty_of_length (s : String) (h : s.length = 0) : s = "" := by
  cases s with
  | mk l =>
    have hl : l = [] := List.length_eq_zero.1 h
    subst hl
    rfl

theorem trimEnd_length_le (s : String) : (trimEnd s).length ≤ s.length := by
  show ((s.data.reverse.dropWhile isWhiteSpace).reverse).length ≤ s.data.length
  rw [List.length_reverse]
  calc (s.data.reverse.dropWhile isWhiteSpace).length
      ≤ s.data.reverse.length := (List.dropWhile_sublist _).length_le
    _ = s.data.length := List.length_reverse _

theorem substring0_length_le (s : String) (n : Int) : (substring0 s n).length ≤ n.toNat := by
  show (s.data.take n.toNat).length ≤ n.toNat
  rw [List.length_take]
  exact Nat.min_le_left _ _

theorem cadenaToString_length_le (val : String) (m : Int) (multilineString : Option Bool)
    (hm : 5 ≤ m) :
    ((cadenaToString val (some m) multilineString).length : Int) ≤ m + 3 := by
  simp only [cadenaToString]
  generalize escapeCadena val multilineString = string
  have e1 : ("'" : String).length = 1 := rfl
  have e2 : ("...'" : String).length = 4 := rfl
  split_ifs with h1 h2
  · simp only [String.length_append, e1]
    omega
  · have ht := trimEnd_length_le (substring0 string (m - 2))
    have hs := substring0_length_le string (m - 2)
    simp only [String.length_append, e1, e2]
    omega
  · exfalso
    apply h2
    constructor <;> omega

theorem typeToStringMultiple_finite (multilineString showString : Option Bool)
    (val : List (Option DataType)) (m : Int) :
    typeToStringMultiple multilineString showString val (some m) "" = "" ∨
      typeToStringMultiple multilineString showString val (some m) "" = "..." := by
  induction val with
  | nil => left; simp [typeToStringMultiple]
  | cons data val ih =>
    rw [typeToStringMultiple]
    have e0 : ("" : String).length = 0 := rfl
    have hb : Budget.minus (some m) ((0 : Nat) : Int) = some m := by simp [Budget.minus]
    simp only [e0, ne_eq, not_true_eq_false, if_false, hb]
    generalize typeToString multilineString showString data (some m) = part
    by_cases hp : part.length = 0
    · have hpe := string_eq_empty_of_length _ hp
      subst hpe
      have hfit : Budget.fits ("" : String).length (some m) (some m) = true := by
        simp [Budget.fits, e0]
      rw [if_pos hfit]
      exact ih
    · have hfit : ¬ Budget.fits part.length (some m) (some m) = true := by
        simp only [Budget.fits, decide_eq_true_eq]
        omega
      rw [if_neg hfit]
      right
      rfl

/-! ## Resolver: auxiliary facts -/

theorem resolveDataType_agalVal (h : Host) (doc : TextDocument) (n : Nat) (t : AgaTokenizer)
    (type : AgalValType) (val : Option DataType) :
    resolveDataType h doc (n + 1) t (some (.agalVal type val))
      = (resolveDataType h doc n t val).andThen fun r t1 => .ret (some (.agalVal type r)) t1 :=
  rfl

theorem resolveDataType_val (h : Host) (doc : TextDocument) (n : Nat) (t : AgaTokenizer)
    (cls : ValClass) (val : Option DataType) (hcls : cls ≠ .promesa) :
    resolveDataType h doc (n + 1) t (some (.val cls val))
      = (resolveDataType h doc n t val).andThen fun r t1 => .ret (some (.val cls r)) t1 := by
  cases cls <;> first | rfl | exact absurd rfl hcls

theorem resolveDataType_promesa (h : Host) (doc : TextDocument) (n : Nat) (t : AgaTokenizer)
    (val : Option DataType) :
    resolveDataType h doc (n + 1) t (some (.val .promesa val))
      = .ret (some (.val .promesa val)) t :=
  rfl

/-! ## Claims -/

/-- C1. Simplification is idempotent: for every type tree `t`, `null` included,
`simplifyType(simplifyType(t))` equals `simplifyType(t)`. -/
theorem simplifyType_idempotent (t : Option DataType) :
    simplifyType (simplifyType t) = simplifyType t :=
  simplifyType_idem t

/-- C2. On a union with alternatives `xs`, `simplifyType` equals the reference
definition: simplify the alternatives, drop the nulls, keep the first occurrence
of every structural duplicate in order; `null` for no survivor, the survivor
itself for exactly one, a union of the survivors otherwise. The union of
`'hi'` and `'hi'` simplifies to `'hi'`. -/
theorem simplifyType_union_refines_spec (xs : List (Option DataType)) :
    simplifyType (some (.multiple xs)) = simplifyUnionSpec xs ∧
      simplifyType (some (.multiple [some (.cadena (some "hi")), some (.cadena (some "hi"))]))
        = some (.cadena (some "hi")) := by
  refine ⟨?_, by decide⟩
  rw [simplifyType, simplifyData_multiple]

/-- C3 (the code departs from the claim). A document read twice with the same
version and the same content: the second `read` launches the backend again and
returns the new answer of the backend, not the sequence cached by the first. -/
theorem read_same_document_twice_launches_backend_twice :
    (AgaTokenizer.new.read countingHost sampleDoc).1 = .ok [sampleToken 0 0 0 1 none] ∧
    (AgaTokenizer.new.read countingHost sampleDoc).2.tokens sampleDoc.fileName
      = some [sampleToken 0 0 0 1 none] ∧
    (AgaTokenizer.new.read countingHost sampleDoc).2.launched = 1 ∧
    ((AgaTokenizer.new.read countingHost sampleDoc).2.maybeUpdate countingHost sampleDoc).1
      = true ∧
    ((AgaTokenizer.new.read countingHost sampleDoc).2.read countingHost sampleDoc).1
      = .ok [sampleToken 0 1 0 2 none] ∧
    ((AgaTokenizer.new.read countingHost sampleDoc).2.read countingHost sampleDoc).2.launched
      = 2 :=
  ⟨rfl, rfl, rfl, rfl, rfl, rfl⟩

/-- C4 (as stated, refuted). No constant `c` bounds the length of every
rendering by `N + c`: an instance type prints its name whole. -/
theorem typeToString_length_not_bounded :
    ¬ ∃ c : Nat, ∀ (N : Int), 5 ≤ N → ∀ (t : Option DataType)
        (multilineString showString : Option Bool),
        ((typeToString multilineString showString t (some N)).length : Int) ≤ N + c := by
  rintro ⟨c, hc⟩
  have h := hc 5 (le_refl 5) (some (.instancia [] (String.mk (List.replicate (c + 6) 'a'))))
    none none
  simp only [typeToString, typeToStringData, String.length, List.length_replicate] at h
  omega

/-- C4 (amended). For every budget `N ≥ 5`, the rendering of a string literal
type with known value and shown contents has length at most `N + 3`, the slack
being the length of the ellipsis marker. -/
theorem typeToString_cadena_length_le (N : Int) (hN : 5 ≤ N) (val : String)
    (multilineString showString : Option Bool) (hshow : showString ≠ some false) :
    ((typeToString multilineString showString (some (.cadena (some val))) (some N)).length : Int)
      ≤ N + 3 := by
  have hclamp : Budget.clamp (some N) = some N := by
    simp only [Budget.clamp, Option.map, Option.some.injEq, ite_eq_right_iff]
    intro h0
    omega
  simp only [typeToString, typeToStringData, hclamp, hshow, ne_eq, not_false_eq_true, if_true]
  exact cadenaToString_length_le val N multilineString hN

theorem typeToString_cadena_length_le_witness :
    (5 : Int) ≤ 7 ∧ (some true : Option Bool) ≠ some false ∧
      ((typeToString none (some true) (some (.cadena (some "hello world"))) (some 7)).length : Int)
        ≤ 7 + 3 :=
  ⟨by decide, by decide,
    typeToString_cadena_length_le 7 (by decide) "hello world" none (some true) (by decide)⟩

/-- C5 (the code departs from the claim). The value `hello world` under budget 7,
contents shown, renders to a quoted string that ends with the ellipsis marker
and is 10 characters long, 3 more than the budget. -/
theorem typeToString_hello_world_exceeds_budget :
    typeToString none (some true) (some (.cadena (some "hello world"))) (some 7) = "'hello...'" ∧
    (typeToString none (some true) (some (.cadena (some "hello world"))) (some 7)).length = 10 ∧
    ¬ ((typeToString none (some true) (some (.cadena (some "hello world"))) (some 7)).length
        ≤ 7) := by
  decide

/-- C6 (the code departs from the claim). Under the finite budget 100 the union of
number and boolean renders as the ellipsis marker alone, although the joined
rendering `Numero | Buleano`, returned under the unbounded budget, is 16
characters long. -/
theorem typeToString_union_finite_budget_ellipsis :
    typeToString none none (some (.multiple [some (.agal .numero), some (.agal .buleano)]))
      (some 100) = "..." ∧
    typeToString none none (some (.multiple [some (.agal .numero), some (.agal .buleano)])) none
      = "Numero | Buleano" := by
  decide

/-- C7. When `read` returns the token sequence `ts`, `find` returns the first
token of `ts` whose location contains the position (start ≤ position ≤ end in
the lexicographic order of line and column, both bounds included), returns no
token when none contains it, and leaves the state `read` leaves. -/
theorem find_returns_first_containing (h : Host) (t : AgaTokenizer) (doc : TextDocument)
    (pos : Pos) (ts : List SemanticToken) (hread : (t.read h doc).1 = .ok ts) :
    ∃ r, (t.find h doc pos).1 = .ok r ∧ FirstContaining ts pos.line pos.character r ∧
      (t.find h doc pos).2 = (t.read h doc).2 := by
  refine ⟨ts.find? (covers pos), ?_, firstContaining_find ts pos, ?_⟩
  · unfold AgaTokenizer.find
    rcases hr : t.read h doc with ⟨r, t1⟩
    rw [hr] at hread
    simp only at hread
    subst hread
    rfl
  · unfold AgaTokenizer.find
    rcases hr : t.read h doc with ⟨r, t1⟩
    rw [hr] at hread
    simp only at hread
    subst hread
    rfl

theorem find_returns_first_containing_witness :
    (AgaTokenizer.new.read (sampleHost [sampleToken 2 5 2 10 none]) sampleDoc).1
        = .ok [sampleToken 2 5 2 10 none] ∧
    (∃ r, (AgaTokenizer.new.find (sampleHost [sampleToken 2 5 2 10 none]) sampleDoc ⟨7, 2⟩).1
          = .ok r ∧
        FirstContaining [sampleToken 2 5 2 10 none] 2 7 r ∧
        (AgaTokenizer.new.find (sampleHost [sampleToken 2 5 2 10 none]) sampleDoc ⟨7, 2⟩).2
          = (AgaTokenizer.new.read (sampleHost [sampleToken 2 5 2 10 none]) sampleDoc).2) ∧
    (AgaTokenizer.new.find (sampleHost [sampleToken 2 5 2 10 none]) sampleDoc ⟨5, 2⟩).1
        = .ok (some (sampleToken 2 5 2 10 none)) ∧
    (AgaTokenizer.new.find (sampleHost [sampleToken 2 5 2 10 none]) sampleDoc ⟨7, 2⟩).1
        = .ok (some (sampleToken 2 5 2 10 none)) ∧
    (AgaTokenizer.new.find (sampleHost [sampleToken 2 5 2 10 none]) sampleDoc ⟨10, 2⟩).1
        = .ok (some (sampleToken 2 5 2 10 none)) ∧
    (AgaTokenizer.new.find (sampleHost [sampleToken 2 5 2 10 none]) sampleDoc ⟨4, 2⟩).1
        = .ok none ∧
    (AgaTokenizer.new.find (sampleHost [sampleToken 2 5 2 10 none]) sampleDoc ⟨11, 2⟩).1
        = .ok none :=
  ⟨rfl,
    find_returns_first_containing (sampleHost [sampleToken 2 5 2 10 none]) AgaTokenizer.new
      sampleDoc ⟨7, 2⟩ [sampleToken 2 5 2 10 none] rfl,
    rfl, rfl, rfl, rfl, rfl⟩

/-- C8. After a refresh performed by `read`, the sequence cached for the
document, which is the sequence returned, is a rearrangement of the tokens
delivered by the backend and is non-decreasing by (start line, start column). -/
theorem read_refresh_sorted_rearrangement (h : Host) (t : AgaTokenizer) (doc : TextDocument)
    (raw : List SemanticToken)
    (hupd : (t.maybeUpdate h doc).1 = true)
    (hraw : ((t.maybeUpdate h doc).2.read_private h doc.fileName).1 = .ok raw) :
    ∃ ts, (t.read h doc).1 = .ok ts ∧ (t.read h doc).2.tokens doc.fileName = some ts ∧
      ts.Perm raw ∧ ts.Pairwise startLe :=
  ⟨sortTokens raw, (read_of_refresh h t doc raw hupd hraw).1,
    (read_of_refresh h t doc raw hupd hraw).2, sortTokens_perm raw, sortTokens_sorted raw⟩

theorem read_refresh_sorted_rearrangement_witness :
    (AgaTokenizer.new.maybeUpdate
        (sampleHost [sampleToken 3 1 3 2 none, sampleToken 1 4 1 6 none, sampleToken 1 0 1 9 none])
        sampleDoc).1 = true ∧
    ∃ ts,
      (AgaTokenizer.new.read
        (sampleHost [sampleToken 3 1 3 2 none, sampleToken 1 4 1 6 none, sampleToken 1 0 1 9 none])
        sampleDoc).1 = .ok ts ∧
      (AgaTokenizer.new.read
        (sampleHost [sampleToken 3 1 3 2 none, sampleToken 1 4 1 6 none, sampleToken 1 0 1 9 none])
        sampleDoc).2.tokens sampleDoc.fileName = some ts ∧
      ts.Perm [sampleToken 3 1 3 2 none, sampleToken 1 4 1 6 none, sampleToken 1 0 1 9 none] ∧
      ts.Pairwise startLe :=
  ⟨rfl,
    read_refresh_sorted_rearrangement
      (sampleHost [sampleToken 3 1 3 2 none, sampleToken 1 4 1 6 none, sampleToken 1 0 1 9 none])
      AgaTokenizer.new sampleDoc
      [sampleToken 3 1 3 2 none, sampleToken 1 4 1 6 none, sampleToken 1 0 1 9 none] rfl rfl⟩


/-- C9 (the code departs from the claim). With a token at `(1,0)-(1,3)` declared
as number: the identifier at that location resolves to number and the `ret`
wrapper around it resolves to `ret` of number, but the `promesa` wrapper
around it is returned as it is, identifier unresolved, and no backend launch
is made. -/
theorem resolveDataType_promesa_returned_unresolved :
    (∀ n, resolveDataType (sampleHost [sampleToken 1 0 1 3 (some (.agal .numero))]) sampleDoc
        (n + 1) AgaTokenizer.new (some (.val .promesa (some (.id sampleLocation))))
      = .ret (some (.val .promesa (some (.id sampleLocation)))) AgaTokenizer.new) ∧
    (∃ t, resolveDataType (sampleHost [sampleToken 1 0 1 3 (some (.agal .numero))]) sampleDoc
        2 AgaTokenizer.new (some (.id sampleLocation))
      = .ret (some (.agal .numero)) t) ∧
    (∃ t, resolveDataType (sampleHost [sampleToken 1 0 1 3 (some (.agal .numero))]) sampleDoc
        3 AgaTokenizer.new (some (.val .ret (some (.id sampleLocation))))
      = .ret (some (.val .ret (some (.agal .numero)))) t) :=
  ⟨fun _ => rfl, ⟨_, rfl⟩, ⟨_, rfl⟩⟩

/-- C10. For an identifier type with location `L`, in any state: when `find` at
`L.start` returns a token carrying a data type `d`, the call comes to exactly
the outcomes of `resolveDataType(d)` made in the state `find` leaves; when
`find` returns no token, or a token carrying no data type, the call returns
`null`. -/
theorem resolveDataType_identifier (h : Host) (doc : TextDocument) (t : AgaTokenizer)
    (location : Location) :
    (∀ (tok : SemanticToken) (d : DataType) (r : Run (Option DataType)),
      (t.find h doc ⟨location.start.column, location.start.line⟩).1 = .ok (some tok) →
      tok.data_type = some d →
      (Resolves h doc t (some (.id location)) r ↔
        Resolves h doc (t.find h doc ⟨location.start.column, location.start.line⟩).2
          (some d) r)) ∧
    ((t.find h doc ⟨location.start.column, location.start.line⟩).1 = .ok none →
      Resolves h doc t (some (.id location))
        (.ret none (t.find h doc ⟨location.start.column, location.start.line⟩).2)) ∧
    (∀ tok : SemanticToken,
      (t.find h doc ⟨location.start.column, location.start.line⟩).1 = .ok (some tok) →
      tok.data_type = none →
      Resolves h doc t (some (.id location))
        (.ret none (t.find h doc ⟨location.start.column, location.start.line⟩).2)) := by
  rcases hf : t.find h doc ⟨location.start.column, location.start.line⟩ with ⟨found, t1⟩
  refine ⟨?_, ?_, ?_⟩
  · intro tok d r hfound hd
    simp only at hfound
    subst hfound
    have step : ∀ n, resolveDataType h doc (n + 1) t (some (.id location))
        = resolveDataType h doc n t1 (some d) := by
      intro n
      simp only [resolveDataType, hf, Option.bind, hd]
    constructor
    · rintro ⟨hr, n, hn⟩
      cases n with
      | zero => exact absurd hn.symm (by simpa [resolveDataType] using hr)
      | succ n => exact ⟨hr, n, (step n).symm.trans hn⟩
    · rintro ⟨hr, n, hn⟩
      exact ⟨hr, n + 1, (step n).trans hn⟩
  · intro hfound
    simp only at hfound
    subst hfound
    refine ⟨by simp, 1, ?_⟩
    simp only [resolveDataType, hf, Option.bind]
  · intro tok hfound hd
    simp only at hfound
    subst hfound
    refine ⟨by simp, 1, ?_⟩
    simp only [resolveDataType, hf, Option.bind, hd]

theorem resolveDataType_identifier_witness :
    (AgaTokenizer.new.find (sampleHost [sampleToken 1 0 1 3 (some (.agal .numero))]) sampleDoc
        ⟨sampleLocation.start.column, sampleLocation.start.line⟩).1
      = .ok (some (sampleToken 1 0 1 3 (some (.agal .numero)))) ∧
    (sampleToken 1 0 1 3 (some (.agal .numero))).data_type = some (.agal .numero) ∧
    Resolves (sampleHost [sampleToken 1 0 1 3 (some (.agal .numero))]) sampleDoc
      AgaTokenizer.new (some (.id sampleLocation))
      (.ret (some (.agal .numero))
        (AgaTokenizer.new.find (sampleHost [sampleToken 1 0 1 3 (some (.agal .numero))]) sampleDoc
          ⟨sampleLocation.start.column, sampleLocation.start.line⟩).2) ∧
    (AgaTokenizer.new.find (sampleHost []) sampleDoc
        ⟨sampleLocation.start.column, sampleLocation.start.line⟩).1 = .ok none ∧
    Resolves (sampleHost []) sampleDoc AgaTokenizer.new (some (.id sampleLocation))
      (.ret none
        (AgaTokenizer.new.find (sampleHost []) sampleDoc
          ⟨sampleLocation.start.column, sampleLocation.start.line⟩).2) :=
  ⟨rfl, rfl,
    ((resolveDataType_identifier (sampleHost [sampleToken 1 0 1 3 (some (.agal .numero))])
        sampleDoc AgaTokenizer.new sampleLocation).1
      (sampleToken 1 0 1 3 (some (.agal .numero))) (.agal .numero) _ rfl rfl).2
      ⟨by simp, 1, rfl⟩,
    rfl,
    (resolveDataType_identifier (sampleHost []) sampleDoc AgaTokenizer.new sampleLocation).2.1
      rfl⟩


/-! ## Token index: cache policy, eviction, frame -/

theorem maybeUpdate_launched (h : Host) (t : AgaTokenizer) (doc : TextDocument) :
    (t.maybeUpdate h doc).2.launched = t.launched := by
  unfold AgaTokenizer.maybeUpdate
  split_ifs <;> rfl

theorem maybeUpdate_tokens_of_true (h : Host) (t : AgaTokenizer) (doc : TextDocument)
    (hupd : (t.maybeUpdate h doc).1 = true) :
    (t.maybeUpdate h doc).2.tokens doc.fileName = none := by
  unfold AgaTokenizer.maybeUpdate at hupd ⊢
  split_ifs at hupd ⊢ with h1 h2 h3
  · simpa using h1
  · simp

theorem maybeUpdate_agreeAt (h : Host) (t : AgaTokenizer) (doc : TextDocument) (g : String)
    (hg : g ≠ doc.fileName) : AgreeAt (t.maybeUpdate h doc).2 t g := by
  unfold AgaTokenizer.maybeUpdate AgreeAt
  split_ifs <;> simp [Function.update_noteq hg]

theorem read_private_agreeAt (h : Host) (t : AgaTokenizer) (file g : String) (hg : g ≠ file) :
    AgreeAt (t.read_private h file).2 t g := by
  unfold AgaTokenizer.read_private AgreeAt
  split <;> simp [Function.update_noteq hg]

theorem read_agreeAt (h : Host) (t : AgaTokenizer) (doc : TextDocument) (g : String)
    (hg : g ≠ doc.fileName) : AgreeAt (t.read h doc).2 t g := by
  have h1 := maybeUpdate_agreeAt h t doc g hg
  have h2 := read_private_agreeAt h (t.maybeUpdate h doc).2 doc.fileName g hg
  unfold AgaTokenizer.read
  rcases hm : t.maybeUpdate h doc with ⟨b, t1⟩
  rw [hm] at h1 h2
  simp only at h1 h2
  cases b with
  | false => exact h1
  | true =>
    simp only
    rcases hp : t1.read_private h doc.fileName with ⟨r, t2⟩
    rw [hp] at h2
    simp only at h2
    cases r with
    | error d =>
      simp only
      exact ⟨h2.1.trans h1.1, h2.2.1.trans h1.2.1, h2.2.2.1.trans h1.2.2.1,
        h2.2.2.2.trans h1.2.2.2⟩
    | ok raw =>
      simp only [AgreeAt, Function.update_noteq hg]
      exact ⟨h2.1.trans h1.1, h2.2.1.trans h1.2.1, h2.2.2.1.trans h1.2.2.1,
        h2.2.2.2.trans h1.2.2.2⟩

theorem read_of_error (h : Host) (t : AgaTokenizer) (doc : TextDocument) (d : Diagnostic)
    (hupd : (t.maybeUpdate h doc).1 = true)
    (hexec : h.execSync t.launched doc.fileName = .error d) :
    (t.read h doc).1 = .error d ∧ (t.read h doc).2.tokens doc.fileName = none := by
  have hl := maybeUpdate_launched h t doc
  have ht := maybeUpdate_tokens_of_true h t doc hupd
  unfold AgaTokenizer.read
  rcases hm : t.maybeUpdate h doc with ⟨b, t1⟩
  rw [hm] at hupd hl ht
  simp only at hupd hl ht
  subst hupd
  simp [AgaTokenizer.read_private, hl, hexec, ht]

theorem read_of_failure (h : Host) (t : AgaTokenizer) (doc : TextDocument)
    (hupd : (t.maybeUpdate h doc).1 = true)
    (hexec : h.execSync t.launched doc.fileName = .failure) :
    (t.read h doc).1 = .ok [] ∧ (t.read h doc).2.tokens doc.fileName = some [] := by
  have hl := maybeUpdate_launched h t doc
  unfold AgaTokenizer.read
  rcases hm : t.maybeUpdate h doc with ⟨b, t1⟩
  rw [hm] at hupd hl
  simp only at hupd hl
  subst hupd
  simp [AgaTokenizer.read_private, hl, hexec, sortTokens]


/-! ## Printer: budgets, lists of renderings -/

theorem Budget.clamp_clamp (b : Budget) : Budget.clamp (Budget.clamp b) = Budget.clamp b := by
  cases b with
  | none => rfl
  | some m =>
    simp only [Budget.clamp, Option.map, Option.some.injEq]
    split_ifs <;> omega

theorem Budget.clamp_minus_clamp (b : Budget) (k : Int) (hk : 0 ≤ k) :
    Budget.clamp (Budget.minus (Budget.clamp b) k) = Budget.clamp (Budget.minus b k) := by
  cases b with
  | none => rfl
  | some m =>
    simp only [Budget.clamp, Budget.minus, Option.map, Option.some.injEq]
    split_ifs <;> omega

theorem typeToStringData_clamp (multilineString showString : Option Bool) (d : DataType)
    (b : Budget) :
    typeToStringData multilineString showString d (Budget.clamp b)
      = typeToStringData multilineString showString d b := by
  cases d with
  | agalVal type val => cases type <;> simp [typeToStringData, Budget.clamp_clamp]
  | val cls val => cases cls <;> simp [typeToStringData, Budget.clamp_clamp]
  | fn cls params ret => cases cls <;> simp [typeToStringData, Budget.clamp_clamp]
  | _ => simp [typeToStringData, Budget.clamp_clamp]

theorem typeToString_clamp (multilineString showString : Option Bool) (d : Option DataType)
    (b : Budget) :
    typeToString multilineString showString d (Budget.clamp b)
      = typeToString multilineString showString d b := by
  cases d with
  | none => simp [typeToString]
  | some d => simp [typeToString, typeToStringData_clamp]

theorem typeToString_clamp_minus (multilineString showString : Option Bool)
    (d : Option DataType) (b : Budget) (k : Int) (hk : 0 ≤ k) :
    typeToString multilineString showString d (Budget.minus (Budget.clamp b) k)
      = typeToString multilineString showString d (Budget.minus b k) := by
  rw [← typeToString_clamp _ _ _ (Budget.minus (Budget.clamp b) k),
    Budget.clamp_minus_clamp b k hk, typeToString_clamp]

theorem typeToStringAll_eq_map (multilineString showString : Option Bool)
    (params : List (Option DataType)) (b : Budget) :
    typeToStringAll multilineString showString params b
      = params.map (fun d => typeToString multilineString showString d b) := by
  induction params with
  | nil => simp [typeToStringAll]
  | cons d params ih => simp [typeToStringAll, ih]

theorem intercalate_go_append (x acc sep : String) (l : List String) :
    String.intercalate.go (x ++ acc) sep l = x ++ String.intercalate.go acc sep l := by
  induction l generalizing acc with
  | nil => simp [String.intercalate.go]
  | cons a l ih =>
    simp only [String.intercalate.go]
    rw [String.append_assoc, String.append_assoc, ← String.append_assoc acc, ih]

theorem typeToStringArgs_unbounded (multilineString showString : Option Bool)
    (args : List (Option DataType)) (callee acc : String) (hacc : acc.length ≠ 0) :
    typeToStringArgs multilineString showString args none callee acc
      = String.intercalate.go acc ", "
          (args.map (fun d => typeToString multilineString showString d none)) := by
  induction args generalizing acc with
  | nil => simp [typeToStringArgs, String.intercalate.go]
  | cons d args ih =>
    rw [typeToStringArgs]
    simp only [hacc, ne_eq, not_false_eq_true, if_true, Budget.minus, Option.map, Budget.fits,
      List.map_cons, String.intercalate.go]
    apply ih
    simp only [String.length_append]
    omega

theorem typeToString_llamada_unbounded (multilineString showString : Option Bool)
    (callee : DataType) (d : Option DataType) (args : List (Option DataType)) :
    typeToString multilineString showString (some (.llamada callee (d :: args))) none
      = typeToStringData multilineString showString callee none ++ "("
          ++ ", ".intercalate
              ((d :: args).map (fun a => typeToString multilineString showString a none))
          ++ ")" := by
  have e0 : ("" : String).length = 0 := rfl
  have e1 : ("(" : String).length = 1 := rfl
  simp only [typeToString, typeToStringData, Budget.clamp, Budget.minus, Option.map,
    typeToStringArgs, e0, ne_eq, not_true_eq_false, if_false, Budget.fits, if_true,
    List.map_cons, String.intercalate]
  rw [typeToStringArgs_unbounded]
  · rw [String.empty_append, intercalate_go_append]
  · simp only [String.length_append, e0, e1]
    omega


/-! ## Resolver: lookups, recursion depth, termination -/

theorem find_of_unstamped (h : Host) (t : AgaTokenizer) (doc : TextDocument) (pos : Pos)
    (file : List SemanticToken) (mod : Option DataType) (hu : Unstamped t doc.fileName)
    (hexec : h.execSync t.launched doc.fileName = .output file mod) :
    (t.find h doc pos).1 = .ok ((sortTokens file).find? (covers pos)) ∧
      Unstamped (t.find h doc pos).2 doc.fileName ∧
      (t.find h doc pos).2.launched = t.launched + 1 := by
  obtain ⟨hv, hh⟩ := hu
  unfold AgaTokenizer.find AgaTokenizer.read AgaTokenizer.maybeUpdate Unstamped
  by_cases hn : (t.tokens doc.fileName).isNone = true
  · simp [hn, AgaTokenizer.read_private, hexec, hv, hh]
  · simp [hn, AgaTokenizer.read_private, hexec, hv, hh]

theorem resolveAll_mono (f g : AgaTokenizer → Option DataType → Run (Option DataType))
    (hfg : ∀ t d r t2, f t d = .ret r t2 → g t d = .ret r t2) :
    ∀ (l : List (Option DataType)) (t : AgaTokenizer) (rs : List (Option DataType))
      (t2 : AgaTokenizer), resolveAll f t l = .ret rs t2 → resolveAll g t l = .ret rs t2 := by
  intro l
  induction l with
  | nil => intro t rs t2 hr; simpa [resolveAll] using hr
  | cons d l ih =>
    intro t rs t2 hr
    simp only [resolveAll] at hr ⊢
    cases hf : f t d with
    | diverge => simp [hf, Run.andThen] at hr
    | thrown e t1 => simp [hf, Run.andThen] at hr
    | ret r t1 =>
      rw [hf] at hr
      rw [hfg t d r t1 hf]
      simp only [Run.andThen] at hr ⊢
      cases hl : resolveAll f t1 l with
      | diverge => simp [hl] at hr
      | thrown e t3 => simp [hl] at hr
      | ret rs2 t3 =>
        rw [hl] at hr
        rw [ih t1 rs2 t3 hl]
        exact hr

theorem andThen_ret_of_ret {α β : Type} (x y : Run α) (k : α → AgaTokenizer → Run β)
    (b : β) (t2 : AgaTokenizer) (hxy : ∀ a t1, x = .ret a t1 → y = .ret a t1)
    (hx : x.andThen k = .ret b t2) : y.andThen k = .ret b t2 := by
  cases x with
  | diverge => simp [Run.andThen] at hx
  | thrown e t1 => simp [Run.andThen] at hx
  | ret a t1 =>
    rw [hxy a t1 rfl]
    exact hx

theorem resolveDataType_mono_succ (h : Host) (doc : TextDocument) :
    ∀ (n : Nat) (t : AgaTokenizer) (d : Option DataType) (r : Option DataType)
      (t2 : AgaTokenizer), resolveDataType h doc n t d = .ret r t2 →
        resolveDataType h doc (n + 1) t d = .ret r t2 := by
  intro n
  induction n with
  | zero => intro t d r t2 hr; simp [resolveDataType] at hr
  | succ n ih =>
    intro t d r t2 hr
    have hall := resolveAll_mono (resolveDataType h doc n) (resolveDataType h doc (n + 1)) ih
    cases d with
    | none => simpa [resolveDataType] using hr
    | some dt =>
      cases dt with
      | multiple val =>
        rw [resolveDataType] at hr ⊢
        exact andThen_ret_of_ret _ _ _ _ _ (hall val t) hr
      | fn cls params ret =>
        rw [resolveDataType] at hr ⊢
        cases hp : resolveAll (resolveDataType h doc n) t params with
        | diverge => simp [hp, Run.andThen] at hr
        | thrown e t1 => simp [hp, Run.andThen] at hr
        | ret ps t1 =>
          rw [hp] at hr
          rw [hall params t ps t1 hp]
          simp only [Run.andThen] at hr ⊢
          exact andThen_ret_of_ret _ _ _ _ _ (ih t1 ret) hr
      | agalVal type val =>
        rw [resolveDataType] at hr ⊢
        exact andThen_ret_of_ret _ _ _ _ _ (ih t val) hr
      | val cls val =>
        rw [resolveDataType] at hr ⊢
        split_ifs at hr ⊢ with hc
        · exact andThen_ret_of_ret _ _ _ _ _ (ih t val) hr
        · exact hr
      | id location =>
        rw [resolveDataType] at hr ⊢
        rcases hf : t.find h doc
          { line := location.start.line, character := location.start.column } with ⟨res, t1⟩
        rw [hf] at hr
        cases res with
        | error e => simp at hr
        | ok found =>
          simp only at hr ⊢
          cases hb : found.bind (fun token => token.data_type) with
          | none => rw [hb] at hr; simpa using hr
          | some token =>
            rw [hb] at hr
            simp only at hr ⊢
            exact ih t1 (some token) r t2 hr
      | agal type => simpa [resolveDataType] using hr
      | cadena v => simpa [resolveDataType] using hr
      | params l => simpa [resolveDataType] using hr
      | param l i => simpa [resolveDataType] using hr
      | instancia p name => simpa [resolveDataType] using hr
      | member o m i => simpa [resolveDataType] using hr
      | llamada c a => simpa [resolveDataType] using hr
      | mod p => simpa [resolveDataType] using hr
      | clase s i name => simpa [resolveDataType] using hr

theorem resolveDataType_mono (h : Host) (doc : TextDocument) (n m : Nat) (hnm : n ≤ m)
    (t : AgaTokenizer) (d : Option DataType) (r : Option DataType) (t2 : AgaTokenizer)
    (hr : resolveDataType h doc n t d = .ret r t2) :
    resolveDataType h doc m t d = .ret r t2 := by
  induction hnm with
  | refl => exact hr
  | step _ ih => exact resolveDataType_mono_succ h doc _ t d r t2 ih


mutual
theorem resolve_terminates_data (h : Host) (doc : TextDocument) (file : List SemanticToken)
    (mod : Option DataType) (rank : Location → Nat)
    (hstat : ∀ n, h.execSync n doc.fileName = .output file mod)
    (hrank : ∀ (l : Location) (d : DataType), declaredType (sortTokens file) l = some d →
      ∀ l2 ∈ identifiersOf d, rank l2 < rank l)
    (k : Nat)
    (ih : ∀ j, j < k → ∀ dt : Option DataType, (∀ l ∈ identifiersOfOpt dt, rank l < j) →
      ∀ t, Unstamped t doc.fileName →
        ∃ n r t2, resolveDataType h doc n t dt = .ret r t2 ∧ Unstamped t2 doc.fileName) :
    ∀ (d : DataType), (∀ l ∈ identifiersOf d, rank l < k) →
      ∀ t, Unstamped t doc.fileName →
        ∃ n r t2, resolveDataType h doc n t (some d) = .ret r t2 ∧ Unstamped t2 doc.fileName
  | .id location, hid, t, hu => by
      have hfind := find_of_unstamped h t doc
        { line := location.start.line, character := location.start.column } file mod hu
        (hstat _)
      rcases hf : t.find h doc
        { line := location.start.line, character := location.start.column } with ⟨res, t1⟩
      rw [hf] at hfind
      obtain ⟨h1, h2, _⟩ := hfind
      simp only at h1 h2
      subst h1
      cases hb : declaredType (sortTokens file) location with
      | none =>
        refine ⟨1, none, t1, ?_, h2⟩
        simp only [declaredType] at hb
        simp only [resolveDataType, hf, hb]
      | some d =>
        have hlt : rank location < k := hid location (by simp [identifiersOf])
        obtain ⟨n, r, t2, hr, hu2⟩ := ih (rank location) hlt (some d)
          (fun l hl => hrank location d hb l hl) t1 h2
        refine ⟨n + 1, r, t2, ?_, hu2⟩
        simp only [declaredType] at hb
        simp only [resolveDataType, hf, hb, hr]
  | .multiple val, hid, t, hu => by
      obtain ⟨n, rs, t2, hr, hu2⟩ := resolve_terminates_list h doc file mod rank hstat hrank k ih
        val (by simpa [identifiersOf] using hid) t hu
      exact ⟨n + 1, some (.multiple rs), t2, by simp [resolveDataType, hr, Run.andThen], hu2⟩
  | .fn cls params ret, hid, t, hu => by
      simp only [identifiersOf, List.mem_append] at hid
      obtain ⟨n1, ps, t1, hr1, hu1⟩ := resolve_terminates_list h doc file mod rank hstat hrank
        k ih params (fun l hl => hid l (Or.inl hl)) t hu
      obtain ⟨n2, r, t2, hr2, hu2⟩ := resolve_terminates_opt h doc file mod rank hstat hrank
        k ih ret (fun l hl => hid l (Or.inr hl)) t1 hu1
      refine ⟨max n1 n2 + 1, some (.fn cls ps r), t2, ?_, hu2⟩
      rw [resolveDataType,
        resolveAll_mono (resolveDataType h doc n1) (resolveDataType h doc (max n1 n2))
          (fun t d r t2 hh => resolveDataType_mono h doc n1 _ (le_max_left _ _) t d r t2 hh)
          params t ps t1 hr1]
      simp only [Run.andThen]
      rw [resolveDataType_mono h doc n2 _ (le_max_right _ _) t1 ret r t2 hr2]
  | .agalVal type val, hid, t, hu => by
      obtain ⟨n, r, t2, hr, hu2⟩ := resolve_terminates_opt h doc file mod rank hstat hrank k ih
        val (by simpa [identifiersOf] using hid) t hu
      exact ⟨n + 1, some (.agalVal type r), t2, by simp [resolveDataType, hr, Run.andThen], hu2⟩
  | .val cls val, hid, t, hu => by
      by_cases hc : cls = .promesa
      · subst hc
        exact ⟨1, some (.val .promesa val), t, rfl, hu⟩
      · obtain ⟨n, r, t2, hr, hu2⟩ := resolve_terminates_opt h doc file mod rank hstat hrank k ih
          val (by simpa [identifiersOf, hc] using hid) t hu
        refine ⟨n + 1, some (.val cls r), t2, ?_, hu2⟩
        rw [resolveDataType_val h doc n t cls val hc, hr]
        rfl
  | .agal type, _, t, hu => ⟨1, _, t, rfl, hu⟩
  | .cadena v, _, t, hu => ⟨1, _, t, rfl, hu⟩
  | .params l, _, t, hu => ⟨1, _, t, rfl, hu⟩
  | .param l i, _, t, hu => ⟨1, _, t, rfl, hu⟩
  | .instancia p name, _, t, hu => ⟨1, _, t, rfl, hu⟩
  | .member o m i, _, t, hu => ⟨1, _, t, rfl, hu⟩
  | .llamada c a, _, t, hu => ⟨1, _, t, rfl, hu⟩
  | .mod p, _, t, hu => ⟨1, _, t, rfl, hu⟩
  | .clase s i name, _, t, hu => ⟨1, _, t, rfl, hu⟩
theorem resolve_terminates_opt (h : Host) (doc : TextDocument) (file : List SemanticToken)
    (mod : Option DataType) (rank : Location → Nat)
    (hstat : ∀ n, h.execSync n doc.fileName = .output file mod)
    (hrank : ∀ (l : Location) (d : DataType), declaredType (sortTokens file) l = some d →
      ∀ l2 ∈ identifiersOf d, rank l2 < rank l)
    (k : Nat)
    (ih : ∀ j, j < k → ∀ dt : Option DataType, (∀ l ∈ identifiersOfOpt dt, rank l < j) →
      ∀ t, Unstamped t doc.fileName →
        ∃ n r t2, resolveDataType h doc n t dt = .ret r t2 ∧ Unstamped t2 doc.fileName) :
    ∀ (o : Option DataType), (∀ l ∈ identifiersOfOpt o, rank l < k) →
      ∀ t, Unstamped t doc.fileName →
        ∃ n r t2, resolveDataType h doc n t o = .ret r t2 ∧ Unstamped t2 doc.fileName
  | none, _, t, hu => ⟨1, none, t, rfl, hu⟩
  | some d, hid, t, hu =>
      resolve_terminates_data h doc file mod rank hstat hrank k ih d
        (by simpa [identifiersOfOpt] using hid) t hu
theorem resolve_terminates_list (h : Host) (doc : TextDocument) (file : List SemanticToken)
    (mod : Option DataType) (rank : Location → Nat)
    (hstat : ∀ n, h.execSync n doc.fileName = .output file mod)
    (hrank : ∀ (l : Location) (d : DataType), declaredType (sortTokens file) l = some d →
      ∀ l2 ∈ identifiersOf d, rank l2 < rank l)
    (k : Nat)
    (ih : ∀ j, j < k → ∀ dt : Option DataType, (∀ l ∈ identifiersOfOpt dt, rank l < j) →
      ∀ t, Unstamped t doc.fileName →
        ∃ n r t2, resolveDataType h doc n t dt = .ret r t2 ∧ Unstamped t2 doc.fileName) :
    ∀ (arr : List (Option DataType)), (∀ l ∈ identifiersOfAll arr, rank l < k) →
      ∀ t, Unstamped t doc.fileName →
        ∃ n rs t2, resolveAll (resolveDataType h doc n) t arr = .ret rs t2 ∧
          Unstamped t2 doc.fileName
  | [], _, t, hu => ⟨0, [], t, rfl, hu⟩
  | d :: arr, hid, t, hu => by
      simp only [identifiersOfAll, List.mem_append] at hid
      obtain ⟨n1, r, t1, hr1, hu1⟩ := resolve_terminates_opt h doc file mod rank hstat hrank
        k ih d (fun l hl => hid l (Or.inl hl)) t hu
      obtain ⟨n2, rs, t2, hr2, hu2⟩ := resolve_terminates_list h doc file mod rank hstat hrank
        k ih arr (fun l hl => hid l (Or.inr hl)) t1 hu1
      refine ⟨max n1 n2, r :: rs, t2, ?_, hu2⟩
      simp only [resolveAll]
      rw [resolveDataType_mono h doc n1 _ (le_max_left _ _) t d r t1 hr1]
      simp only [Run.andThen]
      rw [resolveAll_mono (resolveDataType h doc n2) (resolveDataType h doc (max n1 n2))
        (fun t d r t2 hh => resolveDataType_mono h doc n2 _ (le_max_right _ _) t d r t2 hh)
        arr t1 rs t2 hr2]
end

theorem rank_lt_bound (rank : Location → Nat) (ls : List Location) :
    ∀ l ∈ ls, rank l < (ls.map rank).sum + 1 := by
  intro l hl
  have : rank l ≤ (ls.map rank).sum :=
    List.single_le_sum (fun _ _ => Nat.zero_le _) _ (List.mem_map_of_mem rank hl)
  omega

theorem resolve_terminates (h : Host) (doc : TextDocument) (t : AgaTokenizer)
    (file : List SemanticToken) (mod : Option DataType)
    (hstat : ∀ n, h.execSync n doc.fileName = .output file mod)
    (hu : Unstamped t doc.fileName) (hacyclic : Acyclic (sortTokens file))
    (dt : Option DataType) :
    ∃ n r t2, resolveDataType h doc n t dt = .ret r t2 ∧ Unstamped t2 doc.fileName := by
  obtain ⟨rank, hrank⟩ := hacyclic
  have core : ∀ k, ∀ dt : Option DataType, (∀ l ∈ identifiersOfOpt dt, rank l < k) →
      ∀ t, Unstamped t doc.fileName →
        ∃ n r t2, resolveDataType h doc n t dt = .ret r t2 ∧ Unstamped t2 doc.fileName := by
    intro k
    induction k using Nat.strong_induction_on with
    | _ k ih => exact resolve_terminates_opt h doc file mod rank hstat hrank k ih
  exact core _ dt (rank_lt_bound rank (identifiersOfOpt dt)) t hu

theorem resolve_cyclic_diverges :
    ∀ (n : Nat) (t : AgaTokenizer), Unstamped t sampleDoc.fileName →
      resolveDataType (sampleHost cyclicTokens) sampleDoc n t (some (.id sampleLocation))
        = .diverge := by
  intro n
  induction n with
  | zero => intro t _; rfl
  | succ n ih =>
    intro t hu
    have hfind := find_of_unstamped (sampleHost cyclicTokens) t sampleDoc
      { line := sampleLocation.start.line, character := sampleLocation.start.column }
      cyclicTokens none hu rfl
    rcases hf : t.find (sampleHost cyclicTokens) sampleDoc
      { line := sampleLocation.start.line, character := sampleLocation.start.column }
      with ⟨res, t1⟩
    rw [hf] at hfind
    obtain ⟨h1, h2, _⟩ := hfind
    simp only at h1 h2
    subst h1
    have hb : ((sortTokens cyclicTokens).find?
        (covers { line := sampleLocation.start.line,
                  character := sampleLocation.start.column })).bind
        (fun token => token.data_type) = some (.id sampleLocation) := by decide
    simp only [resolveDataType, hf, hb]
    exact ih t1 h2


/-! ## Claims, continued -/

/-- C12. `maybeUpdate` returns true when no token sequence is cached for the
document; otherwise it returns true exactly when the version of the document
differs from the cached version and the hash of its content differs from the
cached hash. -/
theorem maybeUpdate_true_iff (h : Host) (t : AgaTokenizer) (doc : TextDocument) :
    (t.tokens doc.fileName = none → (t.maybeUpdate h doc).1 = true) ∧
    (t.tokens doc.fileName ≠ none →
      ((t.maybeUpdate h doc).1 = true ↔
        t.versions doc.fileName ≠ some doc.version ∧
          t.hashes doc.fileName ≠ some (h.hash doc.getText))) := by
  unfold AgaTokenizer.maybeUpdate
  constructor
  · intro hn
    simp [hn]
  · intro hs
    have hs2 : (t.tokens doc.fileName).isNone = false := by
      cases hc : t.tokens doc.fileName with
      | none => exact absurd hc hs
      | some v => rfl
    simp only [hs2, Bool.false_eq_true, if_false]
    by_cases h2 : t.versions doc.fileName = some doc.version
    · simp [h2]
    · by_cases h3 : t.hashes doc.fileName = some (h.hash doc.getText)
      · simp [h2, h3]
      · simp [h2, h3]

/-- C13 (as stated, refuted). After a read that stored a module descriptor,
`clear(file)` leaves the descriptor in place and `readMod(file)` returns it. -/
theorem clear_keeps_module_descriptor :
    (((AgaTokenizer.new.read (moduleHost [] (.clase [] [] "demo")) sampleDoc).2.clear
        sampleDoc.fileName).readMod sampleDoc.fileName) = some (.clase [] [] "demo") ∧
    (((AgaTokenizer.new.read (moduleHost [] (.clase [] [] "demo")) sampleDoc).2.clear
        sampleDoc.fileName).readMod sampleDoc.fileName) ≠ none :=
  ⟨rfl, by simp [show (((AgaTokenizer.new.read (moduleHost [] (.clase [] [] "demo"))
    sampleDoc).2.clear sampleDoc.fileName).readMod sampleDoc.fileName)
      = some (.clase [] [] "demo") from rfl]⟩

/-- C13 (amended). After `clear(file)` no token sequence, content hash or
version is cached for the file; the module descriptor is not touched, so
`readMod(file)` returns what it returned before. -/
theorem clear_evicts_tokens_hash_version (t : AgaTokenizer) (file : String) :
    (t.clear file).tokens file = none ∧ (t.clear file).hashes file = none ∧
      (t.clear file).versions file = none ∧
      (t.clear file).readMod file = t.readMod file := by
  simp [AgaTokenizer.clear, AgaTokenizer.readMod]

/-- C14 (as stated, refuted). A document is read, its tokens cached; at the next
read the backend reports an error: the read throws, and no token sequence is
cached for the document afterwards. -/
theorem read_failure_drops_cache :
    (AgaTokenizer.new.read (failingHost [sampleToken 0 0 0 3 none]) sampleDoc).2.tokens
        sampleDoc.fileName = some [sampleToken 0 0 0 3 none] ∧
    ((AgaTokenizer.new.read (failingHost [sampleToken 0 0 0 3 none]) sampleDoc).2.read
        (failingHost [sampleToken 0 0 0 3 none]) sampleDoc).1 = .error sampleDiagnostic ∧
    ((AgaTokenizer.new.read (failingHost [sampleToken 0 0 0 3 none]) sampleDoc).2.read
        (failingHost [sampleToken 0 0 0 3 none]) sampleDoc).2.tokens sampleDoc.fileName
      = none :=
  ⟨rfl, rfl, rfl⟩

/-- C14 (amended). When `read` triggers a refresh and the backend fails, the
sequence cached before is not kept: after an error reported by the backend the
read throws it and no token sequence is cached for the document; after any
other failure the read returns the empty sequence, which is then the cached
one. -/
theorem read_refresh_failure (h : Host) (t : AgaTokenizer) (doc : TextDocument)
    (hupd : (t.maybeUpdate h doc).1 = true) :
    (∀ d, h.execSync t.launched doc.fileName = .error d →
      (t.read h doc).1 = .error d ∧ (t.read h doc).2.tokens doc.fileName = none) ∧
    (h.execSync t.launched doc.fileName = .failure →
      (t.read h doc).1 = .ok [] ∧ (t.read h doc).2.tokens doc.fileName = some []) :=
  ⟨fun d hd => read_of_error h t doc d hupd hd, fun hf => read_of_failure h t doc hupd hf⟩

theorem read_refresh_failure_witness :
    ((AgaTokenizer.new.read (failingHost [sampleToken 0 0 0 3 none]) sampleDoc).2.maybeUpdate
        (failingHost [sampleToken 0 0 0 3 none]) sampleDoc).1 = true ∧
    (failingHost [sampleToken 0 0 0 3 none]).execSync
        (AgaTokenizer.new.read (failingHost [sampleToken 0 0 0 3 none]) sampleDoc).2.launched
        sampleDoc.fileName = .error sampleDiagnostic ∧
    ((AgaTokenizer.new.read (failingHost [sampleToken 0 0 0 3 none]) sampleDoc).2.read
        (failingHost [sampleToken 0 0 0 3 none]) sampleDoc).1 = .error sampleDiagnostic ∧
    ((AgaTokenizer.new.read (failingHost [sampleToken 0 0 0 3 none]) sampleDoc).2.read
        (failingHost [sampleToken 0 0 0 3 none]) sampleDoc).2.tokens sampleDoc.fileName
      = none :=
  ⟨rfl, rfl,
    (read_refresh_failure (failingHost [sampleToken 0 0 0 3 none])
      (AgaTokenizer.new.read (failingHost [sampleToken 0 0 0 3 none]) sampleDoc).2 sampleDoc
      rfl).1 sampleDiagnostic rfl⟩

/-- C16. For two distinct document identities, `read` on a document of the
first, `maybeUpdate` on it and `clear` of the first leave the cached tokens,
hash, version and module descriptor of the second as they were. -/
theorem index_mutation_confined (h : Host) (t : AgaTokenizer) (doc : TextDocument) (g : String)
    (hg : g ≠ doc.fileName) :
    AgreeAt (t.read h doc).2 t g ∧ AgreeAt (t.maybeUpdate h doc).2 t g ∧
      AgreeAt (t.clear doc.fileName) t g :=
  ⟨read_agreeAt h t doc g hg, maybeUpdate_agreeAt h t doc g hg, by
    simp [AgreeAt, AgaTokenizer.clear, Function.update_noteq hg]⟩

theorem index_mutation_confined_witness :
    "other.agal" ≠ sampleDoc.fileName ∧
    AgreeAt ((AgaTokenizer.new.read (moduleHost [] (.clase [] [] "demo"))
        { fileName := "other.agal", version := 1, getText := "" }).2.read
        (moduleHost [sampleToken 0 0 0 3 none] (.clase [] [] "demo")) sampleDoc).2
      (AgaTokenizer.new.read (moduleHost [] (.clase [] [] "demo"))
        { fileName := "other.agal", version := 1, getText := "" }).2 "other.agal" :=
  ⟨by decide,
    (index_mutation_confined (moduleHost [sampleToken 0 0 0 3 none] (.clase [] [] "demo"))
      (AgaTokenizer.new.read (moduleHost [] (.clase [] [] "demo"))
        { fileName := "other.agal", version := 1, getText := "" }).2 sampleDoc "other.agal"
      (by decide)).1⟩

/-- C19. When `read` returns the token sequence `ts`, `filter` returns the
tokens of `ts` whose location contains the position, all of them and in the
order of `ts`, and leaves the state `read` leaves. -/
theorem filter_returns_all_containing (h : Host) (t : AgaTokenizer) (doc : TextDocument)
    (pos : Pos) (ts : List SemanticToken) (hread : (t.read h doc).1 = .ok ts) :
    ∃ r, (t.filter h doc pos).1 = .ok r ∧
      (∀ p : SemanticToken → Bool,
        (∀ tok, p tok = true ↔ tok.location.contains pos.line pos.character) →
          r = ts.filter p) ∧
      (t.filter h doc pos).2 = (t.read h doc).2 := by
  refine ⟨ts.filter (covers pos), ?_, ?_, ?_⟩
  · unfold AgaTokenizer.filter
    rcases hr : t.read h doc with ⟨r, t1⟩
    rw [hr] at hread
    simp only at hread
    subst hread
    rfl
  · intro p hp
    apply List.filter_congr
    intro tok _
    have h1 := covers_iff_contains pos tok
    have h2 := hp tok
    cases hc : covers pos tok <;> cases hq : p tok <;> simp_all
  · unfold AgaTokenizer.filter
    rcases hr : t.read h doc with ⟨r, t1⟩
    rw [hr] at hread
    simp only at hread
    subst hread
    rfl

theorem filter_returns_all_containing_witness :
    (AgaTokenizer.new.read
        (sampleHost [sampleToken 2 0 2 20 none, sampleToken 2 5 2 10 none, sampleToken 3 0 3 4 none])
        sampleDoc).1
      = .ok [sampleToken 2 0 2 20 none, sampleToken 2 5 2 10 none, sampleToken 3 0 3 4 none] ∧
    (∃ r, (AgaTokenizer.new.filter
          (sampleHost [sampleToken 2 0 2 20 none, sampleToken 2 5 2 10 none,
            sampleToken 3 0 3 4 none]) sampleDoc ⟨7, 2⟩).1 = .ok r ∧
      (∀ p : SemanticToken → Bool,
        (∀ tok, p tok = true ↔ tok.location.contains 2 7) →
          r = [sampleToken 2 0 2 20 none, sampleToken 2 5 2 10 none,
            sampleToken 3 0 3 4 none].filter p) ∧
      (AgaTokenizer.new.filter
          (sampleHost [sampleToken 2 0 2 20 none, sampleToken 2 5 2 10 none,
            sampleToken 3 0 3 4 none]) sampleDoc ⟨7, 2⟩).2
        = (AgaTokenizer.new.read
          (sampleHost [sampleToken 2 0 2 20 none, sampleToken 2 5 2 10 none,
            sampleToken 3 0 3 4 none]) sampleDoc).2) ∧
    (AgaTokenizer.new.filter
        (sampleHost [sampleToken 2 0 2 20 none, sampleToken 2 5 2 10 none, sampleToken 3 0 3 4 none])
        sampleDoc ⟨7, 2⟩).1
      = .ok [sampleToken 2 0 2 20 none, sampleToken 2 5 2 10 none] :=
  ⟨rfl,
    filter_returns_all_containing
      (sampleHost [sampleToken 2 0 2 20 none, sampleToken 2 5 2 10 none, sampleToken 3 0 3 4 none])
      AgaTokenizer.new sampleDoc ⟨7, 2⟩
      [sampleToken 2 0 2 20 none, sampleToken 2 5 2 10 none, sampleToken 3 0 3 4 none] rfl,
    rfl⟩

/-- C20. `clear` is idempotent: clearing a file twice leaves the state a single
`clear` leaves; and `clear` of a file with no cached tokens, hash or version
leaves the state as it was. -/
theorem clear_idempotent (t : AgaTokenizer) (file : String) :
    (t.clear file).clear file = t.clear file ∧
    (t.tokens file = none → t.hashes file = none → t.versions file = none →
      t.clear file = t) := by
  constructor
  · simp [AgaTokenizer.clear]
  · intro h1 h2 h3
    cases t with
    | mk tokens mod hashes versions launched =>
      simp only at h1 h2 h3
      simp only [AgaTokenizer.clear, AgaTokenizer.mk.injEq, and_true, true_and]
      exact ⟨by rw [← h1]; exact Function.update_eq_self _ _,
        by rw [← h2]; exact Function.update_eq_self _ _,
        by rw [← h3]; exact Function.update_eq_self _ _⟩

theorem clear_idempotent_witness :
    AgaTokenizer.new.tokens "demo.agal" = none ∧ AgaTokenizer.new.hashes "demo.agal" = none ∧
      AgaTokenizer.new.versions "demo.agal" = none ∧
      AgaTokenizer.new.clear "demo.agal" = AgaTokenizer.new :=
  ⟨rfl, rfl, rfl, (clear_idempotent AgaTokenizer.new "demo.agal").2 rfl rfl rfl⟩


/-- C15 (the code departs from the claim). Under the unbounded budget a call
with an empty argument list renders as the closing parenthesis alone, the
callee and the opening parenthesis missing; with one argument the same callee
renders as `saludar(Numero)`. -/
theorem typeToString_call_without_arguments :
    typeToString none none (some (.llamada (.instancia [] "saludar") [])) none = ")" ∧
    typeToString none none (some (.llamada (.instancia [] "saludar") [some (.agal .numero)]))
      none = "saludar(Numero)" := by
  decide

/-- C17. Under the unbounded budget a function type renders as `fn (`, the
renderings of its parameters joined by `, `, `){ `, the rendering of its
return type, ` }`; a primitive renders as its kind name with the first letter
in upper case. Parameter number and return type boolean give
`fn (Numero){ Buleano }`. -/
theorem typeToString_function_unbounded (multilineString showString : Option Bool)
    (params : List (Option DataType)) (ret : Option DataType) :
    typeToString multilineString showString (some (.fn .fn params ret)) none
      = "fn (" ++ ", ".intercalate
            (params.map (fun d => typeToString multilineString showString d none))
          ++ ")\x7b " ++ typeToString multilineString showString ret none ++ " \x7d" ∧
    (∀ (type : AgalType) (maxLength : Budget),
      typeToString multilineString showString (some (.agal type)) maxLength
        = capitalize type.tag) ∧
    [capitalize AgalType.numero.tag, capitalize AgalType.byte.tag, capitalize AgalType.nada.tag,
      capitalize AgalType.buleano.tag, capitalize AgalType.caracter.tag]
      = ["Numero", "Byte", "Nada", "Buleano", "Caracter"] ∧
    typeToString multilineString showString
      (some (.fn .fn [some (.agal .numero)] (some (.agal .buleano)))) none
      = "fn (Numero)\x7b Buleano \x7d" := by
  refine ⟨?_, ?_, by decide, ?_⟩
  · simp only [typeToString, typeToStringData, Budget.clamp, Budget.minus, Option.map,
      typeToStringAll_eq_map]
  · intro type maxLength
    simp only [typeToString, typeToStringData]
  · simp only [typeToString, typeToStringData, Budget.clamp, Budget.minus, Option.map,
      typeToStringAll]
    decide

/-- C18. For a list or an iterable wrapping `val` and a budget `m`: with `s` the
rendering of `val` under the budget `m - 2` for a list, `m - 1` for an
iterable, the rendering is the empty string when `s` is empty, and otherwise
`[` + `s` + `]` for a list, `@` + `s` for an iterable. -/
theorem typeToString_lista_iterable (multilineString showString : Option Bool)
    (val : Option DataType) (m : Budget) :
    typeToString multilineString showString (some (.agalVal .lista val)) m
      = (if typeToString multilineString showString val (m.minus 2) = "" then ""
         else "[" ++ typeToString multilineString showString val (m.minus 2) ++ "]") ∧
    typeToString multilineString showString (some (.agalVal .iterable val)) m
      = (if typeToString multilineString showString val (m.minus 1) = "" then ""
         else "@" ++ typeToString multilineString showString val (m.minus 1)) := by
  have hlen : ∀ s : String, s.length = 0 ↔ s = "" :=
    fun s => ⟨string_eq_empty_of_length s, fun e => e ▸ rfl⟩
  constructor
  · simp only [typeToString, typeToStringData]
    rw [typeToString_clamp_minus _ _ _ _ 2 (by decide)]
    by_cases hs : typeToString multilineString showString val (m.minus 2) = ""
    · simp [hs]
    · simp [hs, (hlen _).not.2 hs]
  · simp only [typeToString, typeToStringData]
    rw [typeToString_clamp_minus _ _ _ _ 1 (by decide)]
    by_cases hs : typeToString multilineString showString val (m.minus 1) = ""
    · simp [hs]
    · simp [hs, (hlen _).not.2 hs]


/-- C11 (as stated, refuted). With a token at `L` whose data type is the
identifier of `L`, the resolution of that identifier comes to no outcome: it
neither returns `null` nor anything else, at any recursion depth. -/
theorem resolveDataType_cycle_never_returns :
    ¬ ∃ r, Resolves (sampleHost cyclicTokens) sampleDoc AgaTokenizer.new
        (some (.id sampleLocation)) r := by
  rintro ⟨r, hr, n, hn⟩
  rw [resolve_cyclic_diverges n AgaTokenizer.new ⟨rfl, rfl⟩] at hn
  exact hr hn.symm

/-- C11 (amended). When the declarations of the token sequence delivered by the
backend are not cyclic, `resolveDataType` returns for every type, in every
state with no version and no hash recorded for the document. -/
theorem resolveDataType_terminates_of_acyclic (h : Host) (doc : TextDocument)
    (t : AgaTokenizer) (file : List SemanticToken) (mod : Option DataType)
    (hstat : ∀ n, h.execSync n doc.fileName = .output file mod)
    (hu : Unstamped t doc.fileName) (hacyclic : Acyclic (sortTokens file))
    (dt : Option DataType) :
    ∃ r t2, Resolves h doc t dt (.ret r t2) := by
  obtain ⟨n, r, t2, hr, _⟩ := resolve_terminates h doc t file mod hstat hu hacyclic dt
  exact ⟨r, t2, by simp, n, hr⟩

theorem resolveDataType_terminates_of_acyclic_witness :
    (∀ n, (sampleHost chainTokens).execSync n sampleDoc.fileName = .output chainTokens none) ∧
    Unstamped AgaTokenizer.new sampleDoc.fileName ∧
    Acyclic (sortTokens chainTokens) ∧
    (∃ r t2, Resolves (sampleHost chainTokens) sampleDoc AgaTokenizer.new
      (some (.multiple [some (.id sampleLocation), none])) (.ret r t2)) ∧
    (∃ t2, resolveDataType (sampleHost chainTokens) sampleDoc 4 AgaTokenizer.new
      (some (.multiple [some (.id sampleLocation), none]))
        = .ret (some (.multiple [some (.agal .numero), none])) t2) := by
  have hacyclic : Acyclic (sortTokens chainTokens) := by
    refine ⟨fun l => if l.start.line = 1 then 1 else 0, ?_⟩
    intro l d hd l2 hl2
    have hs : sortTokens chainTokens = chainTokens := by decide
    rw [hs] at hd
    simp only [declaredType, chainTokens] at hd
    by_cases hA : covers { line := l.start.line, character := l.start.column }
        (sampleToken 1 0 1 3 (some (.id ⟨⟨2, 0⟩, ⟨2, 3⟩⟩))) = true
    · rw [List.find?_cons_of_pos _ hA] at hd
      simp only [Option.bind, sampleToken, Option.some.injEq] at hd
      subst hd
      simp only [identifiersOf, List.mem_singleton] at hl2
      subst hl2
      have hline : l.start.line = 1 := by
        simp only [covers, sampleToken, Bool.and_eq_true, Bool.or_eq_true, decide_eq_true_eq]
          at hA
        omega
      simp [hline]
    · rw [List.find?_cons_of_neg _ hA] at hd
      by_cases hB : covers { line := l.start.line, character := l.start.column }
          (sampleToken 2 0 2 3 (some (.agal .numero))) = true
      · rw [List.find?_cons_of_pos _ hB] at hd
        simp only [Option.bind, sampleToken, Option.some.injEq] at hd
        subst hd
        simp [identifiersOf] at hl2
      · rw [List.find?_cons_of_neg _ hB] at hd
        simp at hd
  exact ⟨fun _ => rfl, ⟨rfl, rfl⟩, hacyclic,
    resolveDataType_terminates_of_acyclic (sampleHost chainTokens) sampleDoc AgaTokenizer.new
      chainTokens none (fun _ => rfl) ⟨rfl, rfl⟩ hacyclic _,
    ⟨_, rfl⟩⟩

theorem maybeUpdate_true_iff_witness :
    AgaTokenizer.new.tokens sampleDoc.fileName = none ∧
    (AgaTokenizer.new.maybeUpdate countingHost sampleDoc).1 = true ∧
    ({ AgaTokenizer.new with
        tokens := fun _ => some [], versions := fun _ => some 1 } : AgaTokenizer).tokens
      sampleDoc.fileName ≠ none ∧
    ¬ (({ AgaTokenizer.new with
        tokens := fun _ => some [], versions := fun _ => some 1 } : AgaTokenizer).maybeUpdate
      countingHost sampleDoc).1 = true :=
  ⟨rfl, (maybeUpdate_true_iff countingHost AgaTokenizer.new sampleDoc).1 rfl,
    by simp,
    fun hc => (((maybeUpdate_true_iff countingHost
      { AgaTokenizer.new with tokens := fun _ => some [], versions := fun _ => some 1 }
      sampleDoc).2 (by simp)).1 hc).1 rfl⟩


/-! ## Token index: reachable states -/

theorem maybeUpdate_stamps (h : Host) (t : AgaTokenizer) (doc : TextDocument) :
    (t.maybeUpdate h doc).2.versions = t.versions ∧
      (t.maybeUpdate h doc).2.hashes = t.hashes := by
  unfold AgaTokenizer.maybeUpdate
  split_ifs <;> exact ⟨rfl, rfl⟩

theorem read_private_stamps (h : Host) (t : AgaTokenizer) (file : String) :
    (t.read_private h file).2.versions = t.versions ∧
      (t.read_private h file).2.hashes = t.hashes ∧
      (t.read_private h file).2.launched = t.launched + 1 := by
  unfold AgaTokenizer.read_private
  split <;> exact ⟨rfl, rfl, rfl⟩

theorem read_stamps (h : Host) (t : AgaTokenizer) (doc : TextDocument) :
    (t.read h doc).2.versions = t.versions ∧ (t.read h doc).2.hashes = t.hashes := by
  have h1 := maybeUpdate_stamps h t doc
  have h2 := read_private_stamps h (t.maybeUpdate h doc).2 doc.fileName
  unfold AgaTokenizer.read
  rcases hm : t.maybeUpdate h doc with ⟨b, t1⟩
  rw [hm] at h1 h2
  simp only at h1 h2
  cases b with
  | false => exact h1
  | true =>
    simp only
    rcases hp : t1.read_private h doc.fileName with ⟨r, t2⟩
    rw [hp] at h2
    simp only at h2
    cases r with
    | error d => exact ⟨h2.1.trans h1.1, h2.2.1.trans h1.2⟩
    | ok raw => exact ⟨h2.1.trans h1.1, h2.2.1.trans h1.2⟩

theorem find_state (h : Host) (t : AgaTokenizer) (doc : TextDocument) (pos : Pos) :
    (t.find h doc pos).2 = (t.read h doc).2 := by
  unfold AgaTokenizer.find
  rcases t.read h doc with ⟨r, t1⟩
  cases r <;> rfl

theorem filter_state (h : Host) (t : AgaTokenizer) (doc : TextDocument) (pos : Pos) :
    (t.filter h doc pos).2 = (t.read h doc).2 := by
  unfold AgaTokenizer.filter
  rcases t.read h doc with ⟨r, t1⟩
  cases r <;> rfl

theorem reachable_unstamped (h : Host) (t : AgaTokenizer) (hr : Reachable h t) :
    ∀ file, t.versions file = none ∧ t.hashes file = none := by
  induction hr with
  | new => intro file; exact ⟨rfl, rfl⟩
  | read t doc _ ih =>
    intro file
    rw [(read_stamps h t doc).1, (read_stamps h t doc).2]
    exact ih file
  | find t doc pos _ ih =>
    intro file
    rw [find_state, (read_stamps h t doc).1, (read_stamps h t doc).2]
    exact ih file
  | filter t doc pos _ ih =>
    intro file
    rw [filter_state, (read_stamps h t doc).1, (read_stamps h t doc).2]
    exact ih file
  | maybeUpdate t doc _ ih =>
    intro file
    rw [(maybeUpdate_stamps h t doc).1, (maybeUpdate_stamps h t doc).2]
    exact ih file
  | clear t file2 _ ih =>
    intro file
    simp only [AgaTokenizer.clear]
    by_cases hf : file = file2
    · subst hf
      simp
    · simp [Function.update_noteq hf, ih file]

theorem maybeUpdate_of_unstamped (h : Host) (t : AgaTokenizer) (doc : TextDocument)
    (hu : Unstamped t doc.fileName) : (t.maybeUpdate h doc).1 = true := by
  obtain ⟨hv, hh⟩ := hu
  unfold AgaTokenizer.maybeUpdate
  by_cases hn : (t.tokens doc.fileName).isNone = true
  · simp [hn]
  · simp [hn, hv, hh]

theorem read_launches_of_refresh (h : Host) (t : AgaTokenizer) (doc : TextDocument)
    (hupd : (t.maybeUpdate h doc).1 = true) :
    (t.read h doc).2.launched = t.launched + 1 := by
  have hl := maybeUpdate_launched h t doc
  have h2 := read_private_stamps h (t.maybeUpdate h doc).2 doc.fileName
  unfold AgaTokenizer.read
  rcases hm : t.maybeUpdate h doc with ⟨b, t1⟩
  rw [hm] at hupd hl h2
  simp only at hupd hl h2
  subst hupd
  simp only
  rcases hp : t1.read_private h doc.fileName with ⟨r, t2⟩
  rw [hp] at h2
  simp only at h2
  cases r with
  | error d => simp only; omega
  | ok raw => simp only; omega

theorem startLe_refl (a : SemanticToken) : startLe a a := le_refl _

theorem find_least_of_sorted (p : SemanticToken → Bool) :
    ∀ (l : List SemanticToken) (a : SemanticToken), l.Pairwise startLe →
      l.find? p = some a → ∀ u ∈ l, p u = true → startLe a u := by
  intro l
  induction l with
  | nil => intro a _ hf; simp at hf
  | cons x l ih =>
    intro a hs hf u hu hpu
    rw [List.pairwise_cons] at hs
    by_cases hx : p x = true
    · rw [List.find?_cons_of_pos _ hx] at hf
      simp only [Option.some.injEq] at hf
      subst hf
      rcases List.mem_cons.1 hu with rfl | hu
      · exact startLe_refl _
      · exact hs.1 u hu
    · rw [List.find?_cons_of_neg _ hx] at hf
      rcases List.mem_cons.1 hu with rfl | hu
      · exact absurd hpu hx
      · exact ih a hs.2 hf u hu hpu

theorem read_sorted_of_refresh (h : Host) (t : AgaTokenizer) (doc : TextDocument)
    (ts : List SemanticToken) (hupd : (t.maybeUpdate h doc).1 = true)
    (hread : (t.read h doc).1 = .ok ts) : ts.Pairwise startLe := by
  unfold AgaTokenizer.read at hread
  rcases hm : t.maybeUpdate h doc with ⟨b, t1⟩
  rw [hm] at hupd hread
  simp only at hupd hread
  subst hupd
  simp only at hread
  rcases hp : t1.read_private h doc.fileName with ⟨r, t2⟩
  rw [hp] at hread
  cases r with
  | error d => simp at hread
  | ok raw =>
    simp only [Except.ok.injEq] at hread
    subst hread
    exact sortTokens_sorted raw


/-! ## Resolver: identifiers left in a result -/

theorem resolveAll_no_identifiers
    (f : AgaTokenizer → Option DataType → Run (Option DataType))
    (hf : ∀ t d r t2, f t d = .ret r t2 → identifiersOfOpt r = []) :
    ∀ (l : List (Option DataType)) (t : AgaTokenizer) (rs : List (Option DataType))
      (t2 : AgaTokenizer), resolveAll f t l = .ret rs t2 → identifiersOfAll rs = [] := by
  intro l
  induction l with
  | nil =>
    intro t rs t2 hr
    simp only [resolveAll, Run.ret.injEq] at hr
    rw [← hr.1]
    rfl
  | cons d l ih =>
    intro t rs t2 hr
    simp only [resolveAll] at hr
    cases hd : f t d with
    | diverge => simp [hd, Run.andThen] at hr
    | thrown e t1 => simp [hd, Run.andThen] at hr
    | ret r t1 =>
      rw [hd] at hr
      simp only [Run.andThen] at hr
      cases hl : resolveAll f t1 l with
      | diverge => simp [hl] at hr
      | thrown e t3 => simp [hl] at hr
      | ret rs2 t3 =>
        rw [hl] at hr
        simp only [Run.ret.injEq] at hr
        rw [← hr.1]
        simp only [identifiersOfAll, hf t d r t1 hd, ih t1 rs2 t3 hl, List.append_nil]

theorem andThen_ret_inv {α β : Type} (x : Run α) (k : α → AgaTokenizer → Run β)
    (b : β) (t2 : AgaTokenizer) (hx : x.andThen k = .ret b t2) :
    ∃ a t1, x = .ret a t1 ∧ k a t1 = .ret b t2 := by
  cases x with
  | diverge => simp [Run.andThen] at hx
  | thrown e t1 => simp [Run.andThen] at hx
  | ret a t1 => exact ⟨a, t1, rfl, hx⟩

theorem resolveDataType_no_identifiers (h : Host) (doc : TextDocument) :
    ∀ (n : Nat) (t : AgaTokenizer) (d : Option DataType) (r : Option DataType)
      (t2 : AgaTokenizer), resolveDataType h doc n t d = .ret r t2 →
        identifiersOfOpt r = [] := by
  intro n
  induction n with
  | zero => intro t d r t2 hr; simp [resolveDataType] at hr
  | succ n ih =>
    intro t d r t2 hr
    have hall := resolveAll_no_identifiers (resolveDataType h doc n) ih
    cases d with
    | none =>
      simp only [resolveDataType, Run.ret.injEq] at hr
      rw [← hr.1]
      rfl
    | some dt =>
      cases dt with
      | multiple val =>
        rw [resolveDataType] at hr
        obtain ⟨rs, t1, h1, h2⟩ := andThen_ret_inv _ _ _ _ hr
        simp only [Run.ret.injEq] at h2
        rw [← h2.1]
        simp only [identifiersOfOpt, identifiersOf]
        exact hall val t rs t1 h1
      | fn cls params ret =>
        rw [resolveDataType] at hr
        obtain ⟨ps, t1, h1, h2⟩ := andThen_ret_inv _ _ _ _ hr
        obtain ⟨r2, t3, h3, h4⟩ := andThen_ret_inv _ _ _ _ h2
        simp only [Run.ret.injEq] at h4
        rw [← h4.1]
        simp only [identifiersOfOpt, identifiersOf, hall params t ps t1 h1,
          ih t1 ret r2 t3 h3, List.append_nil]
      | agalVal type val =>
        rw [resolveDataType] at hr
        obtain ⟨r2, t1, h1, h2⟩ := andThen_ret_inv _ _ _ _ hr
        simp only [Run.ret.injEq] at h2
        rw [← h2.1]
        simp only [identifiersOfOpt, identifiersOf]
        exact ih t val r2 t1 h1
      | val cls val =>
        rw [resolveDataType] at hr
        split_ifs at hr with hc
        · obtain ⟨r2, t1, h1, h2⟩ := andThen_ret_inv _ _ _ _ hr
          simp only [Run.ret.injEq] at h2
          rw [← h2.1]
          have hnp : cls ≠ .promesa := by
            rintro rfl
            simp at hc
          simp only [identifiersOfOpt, identifiersOf, hnp, if_false]
          exact ih t val r2 t1 h1
        · have hp : cls = .promesa := by
            cases cls <;> simp at hc ⊢
          simp only [Run.ret.injEq] at hr
          rw [← hr.1]
          simp [identifiersOfOpt, identifiersOf, hp]
      | id location =>
        rw [resolveDataType] at hr
        rcases hf : t.find h doc
          { line := location.start.line, character := location.start.column } with ⟨res, t1⟩
        rw [hf] at hr
        cases res with
        | error e => simp at hr
        | ok found =>
          simp only at hr
          cases hb : found.bind (fun token => token.data_type) with
          | none =>
            rw [hb] at hr
            simp only [Run.ret.injEq] at hr
            rw [← hr.1]
            rfl
          | some token =>
            rw [hb] at hr
            exact ih t1 (some token) r t2 hr
      | agal type =>
        simp only [resolveDataType, Run.ret.injEq] at hr
        rw [← hr.1]; rfl
      | cadena v =>
        simp only [resolveDataType, Run.ret.injEq] at hr
        rw [← hr.1]; rfl
      | params l =>
        simp only [resolveDataType, Run.ret.injEq] at hr
        rw [← hr.1]; rfl
      | param l i =>
        simp only [resolveDataType, Run.ret.injEq] at hr
        rw [← hr.1]; rfl
      | instancia p name =>
        simp only [resolveDataType, Run.ret.injEq] at hr
        rw [← hr.1]; rfl
      | member o m i =>
        simp only [resolveDataType, Run.ret.injEq] at hr
        rw [← hr.1]; rfl
      | llamada c a =>
        simp only [resolveDataType, Run.ret.injEq] at hr
        rw [← hr.1]; rfl
      | mod p =>
        simp only [resolveDataType, Run.ret.injEq] at hr
        rw [← hr.1]; rfl
      | clase s i name =>
        simp only [resolveDataType, Run.ret.injEq] at hr
        rw [← hr.1]; rfl


/-! ## Claims, concluded -/

/-- C21. In every state of the index reached from a new `AgaTokenizer` by calls
of `read`, `find`, `filter`, `maybeUpdate` and `clear`, no version and no
content hash is recorded for any file; so `maybeUpdate` returns true for every
document, and every `read` launches the backend. -/
theorem reachable_never_stamped (h : Host) (t : AgaTokenizer) (hr : Reachable h t) :
    (∀ file, t.versions file = none ∧ t.hashes file = none) ∧
    (∀ doc, (t.maybeUpdate h doc).1 = true) ∧
    (∀ doc, (t.read h doc).2.launched = t.launched + 1) := by
  have hu := reachable_unstamped h t hr
  refine ⟨hu, fun doc => maybeUpdate_of_unstamped h t doc (hu doc.fileName), fun doc => ?_⟩
  exact read_launches_of_refresh h t doc (maybeUpdate_of_unstamped h t doc (hu doc.fileName))

theorem reachable_never_stamped_witness :
    Reachable countingHost
      (((AgaTokenizer.new.read countingHost sampleDoc).2.find countingHost sampleDoc ⟨0, 0⟩).2) ∧
    (((AgaTokenizer.new.read countingHost sampleDoc).2.find countingHost sampleDoc
        ⟨0, 0⟩).2.maybeUpdate countingHost sampleDoc).1 = true ∧
    ((((AgaTokenizer.new.read countingHost sampleDoc).2.find countingHost sampleDoc
        ⟨0, 0⟩).2.read countingHost sampleDoc).2.launched) = 3 :=
  ⟨Reachable.find _ _ _ (Reachable.read _ _ Reachable.new),
    (reachable_never_stamped countingHost _
      (Reachable.find _ sampleDoc ⟨0, 0⟩ (Reachable.read _ sampleDoc Reachable.new))).2.1
      sampleDoc,
    rfl⟩

/-- C22. When `resolveDataType` returns, its result holds no identifier at the
root nor at any place reached from the root through the alternatives of
unions, the parameters and return types of functions and constructor
functions, and the values of reference, list, iterable, `ret`, `constructor`
and `item` wrappers. -/
theorem resolveDataType_result_without_identifiers (h : Host) (doc : TextDocument)
    (t : AgaTokenizer) (dt : Option DataType) (r : Option DataType) (t2 : AgaTokenizer)
    (hres : Resolves h doc t dt (.ret r t2)) :
    identifiersOfOpt r = [] := by
  obtain ⟨_, n, hn⟩ := hres
  exact resolveDataType_no_identifiers h doc n t dt r t2 hn

theorem resolveDataType_result_without_identifiers_witness :
    ∃ t2,
      Resolves (sampleHost chainTokens) sampleDoc AgaTokenizer.new
        (some (.fn .fn [some (.id sampleLocation)] (some (.agalVal .lista (some (.id sampleLocation))))))
        (.ret (some (.fn .fn [some (.agal .numero)] (some (.agalVal .lista (some (.agal .numero))))))
          t2) ∧
      identifiersOfOpt
        (some (.fn .fn [some (.agal .numero)] (some (.agalVal .lista (some (.agal .numero))))))
        = [] :=
  ⟨_, ⟨by simp, 5, rfl⟩,
    resolveDataType_result_without_identifiers (sampleHost chainTokens) sampleDoc
      AgaTokenizer.new
      (some (.fn .fn [some (.id sampleLocation)] (some (.agalVal .lista (some (.id sampleLocation))))))
      _ _ ⟨by simp, 5, rfl⟩⟩

/-- C23. In every reachable state of the index, the token `find` returns for a
position starts no later, in (line, column) order, than any token of the
sequence `read` returns whose location contains the position. -/
theorem find_returns_least_start (h : Host) (t : AgaTokenizer) (doc : TextDocument) (pos : Pos)
    (ts : List SemanticToken) (tok u : SemanticToken) (hreach : Reachable h t)
    (hread : (t.read h doc).1 = .ok ts) (hfind : (t.find h doc pos).1 = .ok (some tok))
    (hu : u ∈ ts) (hc : u.location.contains pos.line pos.character) :
    startLe tok u := by
  have hupd := maybeUpdate_of_unstamped h t doc (reachable_unstamped h t hreach doc.fileName)
  have hsorted := read_sorted_of_refresh h t doc ts hupd hread
  have hf : ts.find? (covers pos) = some tok := by
    unfold AgaTokenizer.find at hfind
    rcases hr : t.read h doc with ⟨r, t1⟩
    rw [hr] at hread hfind
    simp only at hread
    subst hread
    simpa using hfind
  exact find_least_of_sorted (covers pos) ts tok hsorted hf u hu
    ((covers_iff_contains pos u).2 hc)

theorem find_returns_least_start_witness :
    (AgaTokenizer.new.read (sampleHost [sampleToken 2 5 2 10 none, sampleToken 2 0 2 20 none])
        sampleDoc).1 = .ok [sampleToken 2 0 2 20 none, sampleToken 2 5 2 10 none] ∧
    (AgaTokenizer.new.find (sampleHost [sampleToken 2 5 2 10 none, sampleToken 2 0 2 20 none])
        sampleDoc ⟨7, 2⟩).1 = .ok (some (sampleToken 2 0 2 20 none)) ∧
    (sampleToken 2 5 2 10 none).location.contains 2 7 ∧
    startLe (sampleToken 2 0 2 20 none) (sampleToken 2 5 2 10 none) :=
  ⟨rfl, rfl, (covers_iff_contains ⟨7, 2⟩ (sampleToken 2 5 2 10 none)).1 rfl,
    find_returns_least_start (sampleHost [sampleToken 2 5 2 10 none, sampleToken 2 0 2 20 none])
      AgaTokenizer.new sampleDoc ⟨7, 2⟩
      [sampleToken 2 0 2 20 none, sampleToken 2 5 2 10 none]
      (sampleToken 2 0 2 20 none) (sampleToken 2 5 2 10 none) Reachable.new rfl rfl
      (by decide) ((covers_iff_contains ⟨7, 2⟩ (sampleToken 2 5 2 10 none)).1 rfl)⟩

/-- C24. For a string literal type with known value, contents shown, and a
finite budget whose clamped value is `m`: the rendering is at most
`max (m + 3) 5` characters long; it is the quoted escaped content, at most `m`
long, when that fits; when it does not fit and `m ≥ 5` it is a quoted text
ending with the ellipsis marker, at most `m + 3` long; when it does not fit and
`m < 5` it is the placeholder of 5 characters. -/
theorem typeToString_cadena_length_cases (val : String)
    (multilineString showString : Option Bool) (hshow : showString ≠ some false) (b m : Int)
    (hm : Budget.clamp (some b) = some m) :
    ((typeToString multilineString showString (some (.cadena (some val))) (some b)).length : Int)
      ≤ max (m + 3) 5 ∧
    (((escapeCadena val multilineString).length : Int) + 2 ≤ m →
      typeToString multilineString showString (some (.cadena (some val))) (some b)
        = "'" ++ escapeCadena val multilineString ++ "'" ∧
      ((typeToString multilineString showString (some (.cadena (some val))) (some b)).length
        : Int) ≤ m) ∧
    (¬ ((escapeCadena val multilineString).length : Int) + 2 ≤ m → 5 ≤ m →
      ((typeToString multilineString showString (some (.cadena (some val))) (some b)).length
        : Int) ≤ m + 3 ∧
      ∃ kept : String,
        typeToString multilineString showString (some (.cadena (some val))) (some b)
          = "'" ++ kept ++ "...'") ∧
    (¬ ((escapeCadena val multilineString).length : Int) + 2 ≤ m → m < 5 →
      typeToString multilineString showString (some (.cadena (some val))) (some b) = "'...'" ∧
      (typeToString multilineString showString (some (.cadena (some val))) (some b)).length
        = 5) := by
  have e1 : ("'" : String).length = 1 := rfl
  have e2 : ("...'" : String).length = 4 := rfl
  have e3 : ("'...'" : String).length = 5 := rfl
  have hout : typeToString multilineString showString (some (.cadena (some val))) (some b)
      = cadenaToString val (some m) multilineString := by
    simp only [typeToString, typeToStringData, hm, hshow, ne_eq, not_false_eq_true, if_true]
  have hcad : cadenaToString val (some m) multilineString
      = if ((escapeCadena val multilineString).length : Int) + 2 ≤ m then
          "'" ++ escapeCadena val multilineString ++ "'"
        else if ((escapeCadena val multilineString).length : Int) + 2 ≥ m ∧ m ≥ 5 then
          "'" ++ trimEnd (substring0 (escapeCadena val multilineString) (m - 2)) ++ "...'"
        else "'...'" := rfl
  have ht := trimEnd_length_le (substring0 (escapeCadena val multilineString) (m - 2))
  have hs := substring0_length_le (escapeCadena val multilineString) (m - 2)
  have hm0 : 0 ≤ m := by
    simp only [Budget.clamp, Option.map, Option.some.injEq] at hm
    split_ifs at hm <;> omega
  rw [hout, hcad]
  generalize escapeCadena val multilineString = string at ht hs ⊢
  refine ⟨?_, ?_, ?_, ?_⟩
  · split_ifs with h1 h2
    · simp only [String.length_append, e1]
      omega
    · simp only [String.length_append, e1, e2]
      omega
    · rw [e3]
      omega
  · intro hfit
    rw [if_pos hfit]
    refine ⟨rfl, ?_⟩
    simp only [String.length_append, e1]
    omega
  · intro hfit h5
    rw [if_neg hfit, if_pos ⟨by omega, h5⟩]
    refine ⟨?_, _, rfl⟩
    simp only [String.length_append, e1, e2]
    omega
  · intro hfit h5
    rw [if_neg hfit, if_neg (by omega)]
    exact ⟨rfl, rfl⟩

theorem typeToString_cadena_length_cases_witness :
    (some true : Option Bool) ≠ some false ∧ Budget.clamp (some 7) = some 7 ∧
    typeToString none (some true) (some (.cadena (some "hello world"))) (some 20)
      = "'hello world'" ∧
    ((typeToString none (some true) (some (.cadena (some "hello world"))) (some 7)).length : Int)
      ≤ max (7 + 3) 5 ∧
    typeToString none (some true) (some (.cadena (some "hello world"))) (some 7)
      = "'hello...'" ∧
    typeToString none (some true) (some (.cadena (some "hello world"))) (some 3) = "'...'" :=
  ⟨by decide, rfl, by decide,
    (typeToString_cadena_length_cases "hello world" none (some true) (by decide) 7 7 rfl).1,
    by decide, by decide⟩


end AgaLang
